import Mathlib

/-!
Verification of the RieszSEnergySubset1D repository.

The repository contains two Python files.  `dp_1d.py` selects, from a sorted
list of one-dimensional points, a subset of k points minimizing the Riesz
s-energy, via a dynamic program (`dp_subset`) and an exhaustive search
(`brute_force_subset`).  `pareto2d.py` does the same for two-dimensional
Pareto points with Euclidean distances (`dp_subset_selection`,
`brute_force_subset_selection`) and compares the two results (`run_example`).

This file gives a shallow embedding of that code and proves the claims stated
about it.  Embedding conventions:

* One-dimensional coordinates are embedded as rationals and the exponent `s`
  as a natural number, reading the float arithmetic of the source as exact
  field arithmetic (the repository only exercises `s = 1`).
* Python `None` becomes `Option.none`.  A value that may be `None` in Python
  (a dp table cell, a stored energy, a stored subset) is an `Option`.
* A Python exception becomes `Except.error`: the dp code can raise a
  `TypeError` (iterating or comparing `None`) and, for `k = 0`, an
  `IndexError`; both are modelled by `PyErr`.
* Two-dimensional points are embedded as pairs of reals, and the float
  `inf` sentinel used by `pareto2d.py` becomes `⊤ : WithTop ℝ`.
-/

/-- Kind of Python runtime error that the embedded code can raise. -/
inductive PyErr where
  | indexError
  | typeError
deriving DecidableEq

deriving instance DecidableEq for Except

/-- The contents of a written 1-D dp cell: the stored pair
`(energy, subset)`, each component possibly Python `None`.  In `dp_1d.py`
the inner loop can leave `best = None` and `best_subset = None`, and line 89
stores that pair unconditionally. -/
abbrev CellVal : Type := Option ℚ × Option (List ℕ)

/-- A 1-D dp table cell: `none` means the cell was never written
(Python `None` from the table initialisation); `some` holds the stored pair. -/
abbrev Cell : Type := Option CellVal

/-- Lexicographic enumeration of all strictly increasing selections of `k`
elements from the list `l`; this is the order produced by
`itertools.combinations` on `l`. -/
def combinations : ℕ → List ℕ → List (List ℕ)
  | 0, _ => [[]]
  | _ + 1, [] => []
  | k + 1, a :: as => (combinations k as).map (a :: ·) ++ combinations (k + 1) as

/-- The pairwise Riesz contribution `1.0 / (gap ** s)` computed by both
solvers in `dp_1d.py`. -/
def pair_energy (gap : ℚ) (s : ℕ) : ℚ := 1 / gap ^ s

/-- Cost of combination member `i0` against the later members `js`:
the partial sums `energy += 1.0 / (gap ** s)` of `brute_force_subset`
for the pairs whose first element is `i0`; `none` when some gap is `≤ 0`
(the `valid = False` branch, which discards the combination). -/
def costAgainstTail (x : List ℚ) (s : ℕ) (i0 : ℕ) : List ℕ → Option ℚ
  | [] => some 0
  | j :: js =>
    let gap := x.getD j 0 - x.getD i0 0
    if gap ≤ 0 then none
    else
      match costAgainstTail x s i0 js with
      | none => none
      | some rest => some (pair_energy gap s + rest)

/-- Total Riesz s-energy of the index combination `c` as computed by the
double loop of `brute_force_subset`; `none` when any pair has gap `≤ 0`. -/
def subsetEnergy (x : List ℚ) (s : ℕ) : List ℕ → Option ℚ
  | [] => some 0
  | i :: rest =>
    match costAgainstTail x s i rest with
    | none => none
    | some head =>
      match subsetEnergy x s rest with
      | none => none
      | some tail => some (head + tail)

/-- The minimum-tracking loop of `brute_force_subset` over the remaining
combinations: invalid combinations are skipped, and a valid one replaces the
current best only under strict `<`. -/
def bfGo (x : List ℚ) (s : ℕ) : List (List ℕ) → Option (ℚ × List ℕ) → Option (ℚ × List ℕ)
  | [], best => best
  | c :: cs, best =>
    match subsetEnergy x s c with
    | none => bfGo x s cs best
    | some e =>
      match best with
      | none => bfGo x s cs (some (e, c))
      | some (be, bs) =>
        if e < be then bfGo x s cs (some (e, c)) else bfGo x s cs (some (be, bs))

/-- Embedding of `brute_force_subset` from `dp_1d.py`: enumerate all size-k index
combinations of `range(n)` in lexicographic order and keep the first one of
minimal energy; the result is `none` exactly when Python returns
`(None, None)`. -/
def brute_force_subset (x : List ℚ) (k s : ℕ) : Option (ℚ × List ℕ) :=
  bfGo x s (combinations k (List.range x.length)) none

/-- Extra cost of appending point `i` to a stored dp subset `qs`:
the loop `for q in subset` of `dp_subset`; `none` when some gap
`x[i] - x[q]` is `≤ 0` (the `valid = False` branch rejecting this candidate). -/
def extra_cost (x : List ℚ) (s i : ℕ) : List ℕ → Option ℚ
  | [] => some 0
  | q :: qs =>
    let gap := x.getD i 0 - x.getD q 0
    if gap ≤ 0 then none
    else
      match extra_cost x s i qs with
      | none => none
      | some rest => some (pair_energy gap s + rest)

/-- The inner loop of `dp_subset` over candidate previous endpoints `ps`
for cell `(r, i)`, carrying `best` and `best_subset`.  A stored subset that
is Python `None` cannot be iterated (`for q in subset` raises TypeError),
and a stored energy that is `None` cannot be added to a float
(`prev_energy + extra_cost` raises TypeError). -/
def cellGo (x : List ℚ) (s : ℕ) (prev : List Cell) (i : ℕ) :
    List ℕ → Option ℚ → Option (List ℕ) → Except PyErr CellVal
  | [], best, bestSub => .ok (best, bestSub)
  | p :: ps, best, bestSub =>
    match prev.getD p none with
    | none => cellGo x s prev i ps best bestSub
    | some (prevE, sub) =>
      match sub with
      | none => .error .typeError
      | some l =>
        match extra_cost x s i l with
        | none => cellGo x s prev i ps best bestSub
        | some extra =>
          match prevE with
          | none => .error .typeError
          | some pe =>
            match best with
            | none => cellGo x s prev i ps (some (pe + extra)) (some (l ++ [i]))
            | some b =>
              if pe + extra < b then cellGo x s prev i ps (some (pe + extra)) (some (l ++ [i]))
              else cellGo x s prev i ps best bestSub

/-- Computation of dp cell `(r, i)` for `r ≥ 2`: the loop
`for p in range(r-2, i)` of `dp_subset`, starting from `best = None`,
`best_subset = None`. -/
def cellCompute (x : List ℚ) (s : ℕ) (prev : List Cell) (r i : ℕ) : Except PyErr CellVal :=
  cellGo x s prev i (List.range' (r - 2) (i - (r - 2))) none none

/-- Build dp row `r` (for `r ≥ 2`) over the index list `is` (called with
`range n`): the cells with `i < r - 1` are never written and stay `None`;
the others store the pair computed by the inner loop. -/
def buildRow (x : List ℚ) (s : ℕ) (prev : List Cell) (r : ℕ) : List ℕ → Except PyErr (List Cell)
  | [] => .ok []
  | i :: is =>
    if i < r - 1 then
      match buildRow x s prev r is with
      | .error e => .error e
      | .ok rest => .ok (none :: rest)
    else
      match cellCompute x s prev r i with
      | .error e => .error e
      | .ok cc =>
        match buildRow x s prev r is with
        | .error e => .error e
        | .ok rest => .ok (some cc :: rest)

/-- Build the dp rows `r ∈ rs` in increasing order from the previous row and
return the final row; only the previous row is ever read, so carrying the
last row is faithful to the full table of `dp_subset`. -/
def buildRows (x : List ℚ) (s : ℕ) : List ℕ → List Cell → Except PyErr (List Cell)
  | [], row => .ok row
  | r :: rs, row =>
    match buildRow x s row r (List.range x.length) with
    | .error e => .error e
    | .ok nr => buildRows x s rs nr

/-- The final scan of `dp_subset` over `dp[k][i]` for `i in range(k-1, n)`.
While `best_final` is `None` the condition short-circuits and the stored pair
is taken as is; once `best_final` is a float, comparing it against a stored
`None` energy raises TypeError. -/
def finalScan (rowk : List Cell) : List ℕ → CellVal → Except PyErr CellVal
  | [], acc => .ok acc
  | i :: is, acc =>
    match rowk.getD i none with
    | none => finalScan rowk is acc
    | some (energy, subset) =>
      match acc.1 with
      | none => finalScan rowk is (energy, subset)
      | some bf =>
        match energy with
        | none => .error .typeError
        | some e => if e < bf then finalScan rowk is (some e, subset) else finalScan rowk is acc

/-- Embedding of `dp_subset` from `dp_1d.py`.  The table `dp` has `k + 1` rows; for
`k = 0` the base-case loop writes `dp[1][i]` for every `i < n`, an
IndexError when the list is non-empty, and for the empty list the final scan
runs over `range(-1, 0) = [-1]` and reads `dp[0][-1]` from the empty row,
again an IndexError.  For `k ≥ 1` the code runs the base case, the rows
`r = 2 .. k`, and the final scan. -/
def dp_subset (x : List ℚ) (k s : ℕ) : Except PyErr CellVal :=
  if k = 0 then .error .indexError
  else
    match buildRows x s (List.range' 2 (k - 1))
        ((List.range x.length).map fun i => some (some (0 : ℚ), some [i])) with
    | .error e => .error e
    | .ok rowk => finalScan rowk (List.range' (k - 1) (x.length - (k - 1))) (none, none)

/-- A valid size-k subset in the sense of the specification: a strictly
increasing list of indices into `x`, of length exactly `k`, all of whose
pairwise gaps `x[b] - x[a]` (for `a` before `b`) are strictly positive.
This is the validity test both solvers apply: for inputs sorted increasingly
the signed gap of an increasing index pair is exactly the pairwise distance. -/
def ValidSubset (x : List ℚ) (k : ℕ) (c : List ℕ) : Prop :=
  c.Pairwise (· < ·) ∧ c.length = k ∧ (∀ a ∈ c, a < x.length) ∧
    c.Pairwise (fun a b => x.getD a 0 < x.getD b 0)

instance (x : List ℚ) (k : ℕ) (c : List ℕ) : Decidable (ValidSubset x k c) :=
  inferInstanceAs (Decidable (_ ∧ _ ∧ _ ∧ _))

/-- The candidate value the inner dp loop computes for previous endpoint `p`
of cell `(r, i)`: `prev_energy + extra_cost` when a stored pair with a float
energy and a list subset is present at `p` and every gap to `i` is positive;
`none` when this `p` is skipped (missing cell or rejected extension). -/
def pCand (x : List ℚ) (s : ℕ) (prev : List Cell) (i p : ℕ) : Option ℚ :=
  match prev.getD p none with
  | some (some pe, some l) =>
    match extra_cost x s i l with
    | some extra => some (pe + extra)
    | none => none
  | _ => none

/-- Structural properties of a stored dp subset of row `r`: strictly
increasing, of length `r`, indices in range, and consecutive coordinates
strictly increasing along the subset (every extension was accepted with a
positive gap). -/
def dpSubProps (x : List ℚ) (r : ℕ) (l : List ℕ) : Prop :=
  l.Pairwise (· < ·) ∧ l.length = r ∧ (∀ a ∈ l, a < x.length) ∧
    l.Pairwise (fun a b => x.getD a 0 < x.getD b 0)

/-- Invariant of a written dp cell of row `r` at index `p`: energy and subset
are stored together (both `None` or both present), and a stored subset has
the structural properties of row `r` and ends at `p`. -/
def GoodCell (x : List ℚ) (r p : ℕ) (cnt : CellVal) : Prop :=
  (cnt.1.isSome ↔ cnt.2.isSome) ∧
    ∀ l, cnt.2 = some l → dpSubProps x r l ∧ l.getLast? = some p

/-- Invariant of dp row `r`: every written cell satisfies `GoodCell`. -/
def GoodRow (x : List ℚ) (r : ℕ) (row : List Cell) : Prop :=
  ∀ p cnt, row.getD p none = some cnt → GoodCell x r p cnt

/-! Embedding of `pareto2d.py`.  Coordinates are pairs of reals; the float
`inf` sentinel of the source becomes `⊤ : WithTop ℝ`, which has the same
addition and strict-order behaviour as IEEE `inf` on the operations the code
performs (no subtraction and no NaN arise inside the solvers). -/

/-- The contents of a written 2-D dp cell: the stored energy (possibly the
`inf` sentinel) and the stored subset (possibly Python `None`). -/
abbrev CellVal2 : Type := WithTop ℝ × Option (List ℕ)

/-- A 2-D dp table cell: `none` means never written. -/
abbrev Cell2 : Type := Option CellVal2

/-- Embedding of `euclidean_distance` from `pareto2d.py`. -/
noncomputable def euclidean_distance (p q : ℝ × ℝ) : ℝ :=
  Real.sqrt ((p.1 - q.1) ^ 2 + (p.2 - q.2) ^ 2)

open Classical in
/-- The loop computing `extra_cost` in `dp_subset_selection`: on a zero
distance the accumulator is overwritten with `inf` and the loop breaks,
which yields the same value as adding `⊤` at that point. -/
noncomputable def extra_cost2 (pts : List (ℝ × ℝ)) (s : ℕ) (i : ℕ) : List ℕ → WithTop ℝ
  | [] => 0
  | q :: qs =>
    let d := euclidean_distance (pts.getD q (0, 0)) (pts.getD i (0, 0))
    if d = 0 then ⊤
    else ((1 / d ^ s : ℝ) : WithTop ℝ) + extra_cost2 pts s i qs

open Classical in
/-- The inner loop of `dp_subset_selection` over previous endpoints `ps`:
`best_energy` starts at `inf`; iterating a stored subset that is Python
`None` raises TypeError. -/
noncomputable def cellGo2 (pts : List (ℝ × ℝ)) (s : ℕ) (prev : List Cell2) (i : ℕ) :
    List ℕ → WithTop ℝ → Option (List ℕ) → Except PyErr CellVal2
  | [], best, bestSub => .ok (best, bestSub)
  | p :: ps, best, bestSub =>
    match prev.getD p none with
    | none => cellGo2 pts s prev i ps best bestSub
    | some (prevE, sub) =>
      match sub with
      | none => .error .typeError
      | some l =>
        if prevE + extra_cost2 pts s i l < best then
          cellGo2 pts s prev i ps (prevE + extra_cost2 pts s i l) (some (l ++ [i]))
        else cellGo2 pts s prev i ps best bestSub

/-- Computation of 2-D dp cell `(r, i)` for `r ≥ 2`. -/
noncomputable def cellCompute2 (pts : List (ℝ × ℝ)) (s : ℕ) (prev : List Cell2) (r i : ℕ) :
    Except PyErr CellVal2 :=
  cellGo2 pts s prev i (List.range' (r - 2) (i - (r - 2))) ⊤ none

/-- Build 2-D dp row `r` (for `r ≥ 2`) over the index list `is`. -/
noncomputable def buildRow2 (pts : List (ℝ × ℝ)) (s : ℕ) (prev : List Cell2) (r : ℕ) :
    List ℕ → Except PyErr (List Cell2)
  | [] => .ok []
  | i :: is =>
    if i < r - 1 then
      match buildRow2 pts s prev r is with
      | .error e => .error e
      | .ok rest => .ok (none :: rest)
    else
      match cellCompute2 pts s prev r i with
      | .error e => .error e
      | .ok cc =>
        match buildRow2 pts s prev r is with
        | .error e => .error e
        | .ok rest => .ok (some cc :: rest)

/-- Build the 2-D dp rows `r ∈ rs` in increasing order, returning the last row. -/
noncomputable def buildRows2 (pts : List (ℝ × ℝ)) (s : ℕ) :
    List ℕ → List Cell2 → Except PyErr (List Cell2)
  | [], row => .ok row
  | r :: rs, row =>
    match buildRow2 pts s row r (List.range pts.length) with
    | .error e => .error e
    | .ok nr => buildRows2 pts s rs nr

open Classical in
/-- The final scan of `dp_subset_selection`: `final_energy` starts at `inf`
and every stored energy is a float (possibly `inf`), so no TypeError can
occur here. -/
noncomputable def finalScan2 (rowk : List Cell2) : List ℕ → CellVal2 → CellVal2
  | [], acc => acc
  | i :: is, acc =>
    match rowk.getD i none with
    | none => finalScan2 rowk is acc
    | some (energy, subset) =>
      if energy < acc.1 then finalScan2 rowk is (energy, subset) else finalScan2 rowk is acc

/-- Embedding of `dp_subset_selection` from `pareto2d.py`; the `k = 0` analysis is the
same as for `dp_subset` (the table has `k + 1` rows and row 1 is written
unconditionally for every point, so any `k = 0` call raises IndexError). -/
noncomputable def dp_subset_selection (pts : List (ℝ × ℝ)) (k s : ℕ) : Except PyErr CellVal2 :=
  if k = 0 then .error .indexError
  else
    match buildRows2 pts s (List.range' 2 (k - 1))
        ((List.range pts.length).map fun i => some ((0 : WithTop ℝ), some [i])) with
    | .error e => .error e
    | .ok rowk => .ok (finalScan2 rowk (List.range' (k - 1) (pts.length - (k - 1))) (⊤, none))

open Classical in
/-- Cost of combination member `i0` against the later members `js` in
`brute_force_subset_selection`; `none` when some pair distance is zero
(the `valid = False` branch). -/
noncomputable def tailCost2 (pts : List (ℝ × ℝ)) (s : ℕ) (i0 : ℕ) : List ℕ → Option ℝ
  | [] => some 0
  | j :: js =>
    let d := euclidean_distance (pts.getD i0 (0, 0)) (pts.getD j (0, 0))
    if d = 0 then none
    else
      match tailCost2 pts s i0 js with
      | none => none
      | some rest => some (1 / d ^ s + rest)

/-- Total Riesz s-energy of a combination in `brute_force_subset_selection`;
`none` when any pair distance is zero. -/
noncomputable def subsetEnergy2 (pts : List (ℝ × ℝ)) (s : ℕ) : List ℕ → Option ℝ
  | [] => some 0
  | i :: rest =>
    match tailCost2 pts s i rest with
    | none => none
    | some head =>
      match subsetEnergy2 pts s rest with
      | none => none
      | some tail => some (head + tail)

open Classical in
/-- The minimum-tracking loop of `brute_force_subset_selection`:
`best_energy` starts at `inf` and a valid combination replaces the best only
under strict `<`. -/
noncomputable def bfGo2 (pts : List (ℝ × ℝ)) (s : ℕ) :
    List (List ℕ) → WithTop ℝ × Option (List ℕ) → WithTop ℝ × Option (List ℕ)
  | [], best => best
  | c :: cs, best =>
    match subsetEnergy2 pts s c with
    | none => bfGo2 pts s cs best
    | some e =>
      if (e : WithTop ℝ) < best.1 then bfGo2 pts s cs ((e : WithTop ℝ), some c)
      else bfGo2 pts s cs best

/-- Embedding of `brute_force_subset_selection` from `pareto2d.py`. -/
noncomputable def brute_force_subset_selection (pts : List (ℝ × ℝ)) (k s : ℕ) :
    WithTop ℝ × Option (List ℕ) :=
  bfGo2 pts s (combinations k (List.range pts.length)) (⊤, none)

/-- A valid size-k subset of the 2-D point sequence: a strictly increasing
list of indices into `pts`, of length exactly `k`, all of whose pairwise
Euclidean distances are strictly positive (nonzero), which is the validity
test `brute_force_subset_selection` applies. -/
def ValidSubset2 (pts : List (ℝ × ℝ)) (k : ℕ) (c : List ℕ) : Prop :=
  c.Pairwise (· < ·) ∧ c.length = k ∧ (∀ a ∈ c, a < pts.length) ∧
    c.Pairwise (fun a b => euclidean_distance (pts.getD a (0, 0)) (pts.getD b (0, 0)) ≠ 0)

/-- Structural properties of a stored 2-D dp subset of row `r`: strictly
increasing, of length `r`, indices in range. -/
def dpSubProps2 (pts : List (ℝ × ℝ)) (r : ℕ) (l : List ℕ) : Prop :=
  l.Pairwise (· < ·) ∧ l.length = r ∧ ∀ a ∈ l, a < pts.length

/-- Invariant of a written 2-D dp cell of row `r` at index `p`: a stored
subset has the structural properties of row `r` and ends at `p`. -/
def GoodCell2 (pts : List (ℝ × ℝ)) (r p : ℕ) (cnt : CellVal2) : Prop :=
  ∀ l, cnt.2 = some l → dpSubProps2 pts r l ∧ l.getLast? = some p

/-- Invariant of 2-D dp row `r`: every written cell satisfies `GoodCell2`. -/
def GoodRow2 (pts : List (ℝ × ℝ)) (r : ℕ) (row : List Cell2) : Prop :=
  ∀ p cnt, row.getD p none = some cnt → GoodCell2 pts r p cnt

/-- The float test `abs(dp_energy - bf_energy) < tol` of `run_example`
(line 123 of `pareto2d.py`), transcribed to the `inf`-extended reals: it
holds exactly when both energies are finite reals whose difference is small.
When either operand is `inf` the float subtraction yields `inf`, `-inf` or
NaN, and in each case the comparison against the tolerance is false. -/
def pyAbsDiffLt (u v : WithTop ℝ) (t : ℝ) : Prop :=
  ∃ a b : ℝ, u = (a : WithTop ℝ) ∧ v = (b : WithTop ℝ) ∧ |a - b| < t

open Classical in
/-- The Oracle/Comparator of `run_example` (lines 112-126 of `pareto2d.py`):
run both solvers on the same input and report whether the subsets coincide
and the energies differ by less than `1e-6`.  The comparison itself neither
modifies nor depends on anything but the two returned results. -/
noncomputable def run_example_match (pts : List (ℝ × ℝ)) (k s : ℕ) : Except PyErr Bool :=
  match dp_subset_selection pts k s with
  | .error e => .error e
  | .ok dpRes =>
    if dpRes.2 = (brute_force_subset_selection pts k s).2 ∧
        pyAbsDiffLt dpRes.1 (brute_force_subset_selection pts k s).1 (1 / 1000000) then
      .ok true
    else .ok false

attribute [local semireducible] Rat.add Rat.mul Rat.sub Rat.inv

/-! ### The enumeration of combinations -/

theorem mem_combinations : ∀ (l : List ℕ) (k : ℕ) (c : List ℕ),
    c ∈ combinations k l ↔ List.Sublist c l ∧ c.length = k := by
  intro l
  induction l with
  | nil =>
    intro k c
    cases k with
    | zero =>
      simp only [combinations, List.mem_singleton, List.sublist_nil, List.length_eq_zero]
      exact ⟨fun h => ⟨h, h⟩, fun h => h.1⟩
    | succ k =>
      simp only [combinations, List.not_mem_nil, false_iff, not_and, List.sublist_nil]
      rintro rfl
      simp
  | cons a as ih =>
    intro k c
    cases k with
    | zero =>
      simp only [combinations, List.mem_singleton, List.length_eq_zero]
      constructor
      · rintro rfl
        exact ⟨List.nil_sublist _, rfl⟩
      · exact fun h => h.2
    | succ k =>
      simp only [combinations, List.mem_append, List.mem_map]
      constructor
      · rintro (⟨c', hc', rfl⟩ | hc)
        · rcases (ih k c').mp hc' with ⟨hsub, hlen⟩
          exact ⟨hsub.cons₂ a, by simp [hlen]⟩
        · rcases (ih (k + 1) c).mp hc with ⟨hsub, hlen⟩
          exact ⟨hsub.cons a, hlen⟩
      · rintro ⟨hsub, hlen⟩
        rcases List.sublist_cons_iff.mp hsub with hsub' | ⟨r, rfl, hr⟩
        · exact Or.inr ((ih (k + 1) c).mpr ⟨hsub', hlen⟩)
        · exact Or.inl ⟨r, (ih k r).mpr ⟨hr, by simpa using hlen⟩, rfl⟩

theorem sublist_range'_of : ∀ (n s : ℕ) (c : List ℕ), c.Pairwise (· < ·) →
    (∀ b ∈ c, s ≤ b ∧ b < s + n) → List.Sublist c (List.range' s n) := by
  intro n
  induction n with
  | zero =>
    intro s c _ hb
    cases c with
    | nil => exact List.nil_sublist _
    | cons a c => exact absurd (hb a (by simp)) (by omega)
  | succ n ih =>
    intro s c hp hb
    rw [List.range'_succ]
    cases c with
    | nil => exact List.nil_sublist _
    | cons a c =>
      rcases List.pairwise_cons.mp hp with ⟨ha, hc⟩
      by_cases has : a = s
      · subst has
        refine List.Sublist.cons₂ a (ih (a + 1) c hc fun b hbm => ?_)
        have := ha b hbm
        have := (hb b (by simp [hbm])).2
        omega
      · refine List.Sublist.cons s (ih (s + 1) (a :: c) hp fun b hbm => ?_)
        rcases List.mem_cons.mp hbm with rfl | hbm'
        · have := hb b (by simp)
          omega
        · have h1 := hb b (by simp [hbm'])
          have h2 := ha b hbm'
          have h3 := (hb a (by simp)).1
          omega

theorem sublist_range_iff (n : ℕ) (c : List ℕ) :
    List.Sublist c (List.range n) ↔ c.Pairwise (· < ·) ∧ ∀ b ∈ c, b < n := by
  constructor
  · intro h
    refine ⟨List.Pairwise.sublist h (List.sorted_lt_range n), fun b hb => ?_⟩
    exact List.mem_range.mp (h.subset hb)
  · rintro ⟨hp, hb⟩
    rw [List.range_eq_range']
    exact sublist_range'_of n 0 c hp fun b hbm => ⟨Nat.zero_le _, by simpa using hb b hbm⟩

theorem mem_combinations_range (n k : ℕ) (c : List ℕ) :
    c ∈ combinations k (List.range n) ↔
      c.Pairwise (· < ·) ∧ c.length = k ∧ ∀ b ∈ c, b < n := by
  rw [mem_combinations, sublist_range_iff]
  tauto

theorem valid_mem_combinations (x : List ℚ) (k : ℕ) (c : List ℕ) (h : ValidSubset x k c) :
    c ∈ combinations k (List.range x.length) :=
  (mem_combinations_range _ _ _).mpr ⟨h.1, h.2.1, h.2.2.1⟩

/-! ### When the energy of a combination is defined -/

theorem costAgainstTail_isSome_iff (x : List ℚ) (s i0 : ℕ) : ∀ (t : List ℕ),
    (costAgainstTail x s i0 t).isSome ↔ ∀ j ∈ t, x.getD i0 0 < x.getD j 0 := by
  intro t
  induction t with
  | nil => simp [costAgainstTail]
  | cons j js ih =>
    by_cases hg : x.getD j 0 - x.getD i0 0 ≤ 0
    · simp only [costAgainstTail, if_pos hg]
      simp only [Option.isSome_none, Bool.false_eq_true, false_iff, not_forall]
      exact ⟨j, by simp, by linarith⟩
    · simp only [costAgainstTail, if_neg hg]
      push_neg at hg
      rcases hrec : costAgainstTail x s i0 js with _ | v
      · rw [hrec] at ih
        simp only [Option.isSome_none, Bool.false_eq_true, false_iff, not_forall] at ih ⊢
        rcases ih with ⟨j', hj', hlt⟩
        exact ⟨j', by simp [hj'], hlt⟩
      · rw [hrec] at ih
        simp only [Option.isSome_some, true_iff] at ih
        simp only [Option.isSome_some, true_iff, List.mem_cons]
        rintro b (rfl | hb)
        · linarith
        · exact ih b hb

theorem subsetEnergy_isSome_iff (x : List ℚ) (s : ℕ) : ∀ (c : List ℕ),
    (subsetEnergy x s c).isSome ↔ c.Pairwise (fun a b => x.getD a 0 < x.getD b 0) := by
  intro c
  induction c with
  | nil => simp [subsetEnergy]
  | cons i rest ih =>
    rw [List.pairwise_cons]
    rcases hhead : costAgainstTail x s i rest with _ | hv
    · simp only [subsetEnergy, hhead]
      have := (costAgainstTail_isSome_iff x s i rest)
      rw [hhead] at this
      simp only [Option.isSome_none, Bool.false_eq_true, false_iff, not_forall] at this ⊢
      rcases this with ⟨j, hj, hlt⟩
      intro h
      exact hlt (h.1 j hj)
    · have hall : ∀ j ∈ rest, x.getD i 0 < x.getD j 0 := by
        have := (costAgainstTail_isSome_iff x s i rest)
        rw [hhead] at this
        simpa using this.mp (by simp)
      rcases htail : subsetEnergy x s rest with _ | tv
      · simp only [subsetEnergy, hhead, htail]
        rw [htail] at ih
        simp only [Option.isSome_none, Bool.false_eq_true, false_iff] at ih ⊢
        exact fun h => ih h.2
      · simp only [subsetEnergy, hhead, htail]
        rw [htail] at ih
        simp only [Option.isSome_some, true_iff] at ih
        simp only [Option.isSome_some, true_iff]
        exact ⟨hall, ih⟩

theorem validSubset_iff_energy_isSome (x : List ℚ) (k s : ℕ) (c : List ℕ) :
    ValidSubset x k c ↔
      c ∈ combinations k (List.range x.length) ∧ (subsetEnergy x s c).isSome := by
  rw [mem_combinations_range, subsetEnergy_isSome_iff]
  unfold ValidSubset
  tauto

/-! ### The brute-force minimum-tracking loop -/

theorem bfGo_eq_none_iff (x : List ℚ) (s : ℕ) : ∀ (cs : List (List ℕ)) (acc : Option (ℚ × List ℕ)),
    bfGo x s cs acc = none ↔ acc = none ∧ ∀ c ∈ cs, subsetEnergy x s c = none := by
  intro cs
  induction cs with
  | nil => simp [bfGo]
  | cons c cs ih =>
    intro acc
    rcases he : subsetEnergy x s c with _ | e
    · simp only [bfGo, he, ih, List.mem_cons]
      constructor
      · rintro ⟨h1, h2⟩
        refine ⟨h1, ?_⟩
        rintro c' (rfl | hc')
        · exact he
        · exact h2 c' hc'
      · rintro ⟨h1, h2⟩
        exact ⟨h1, fun c' hc' => h2 c' (Or.inr hc')⟩
    · rcases acc with _ | ⟨be, bs⟩
      · simp only [bfGo, he, ih]
        constructor
        · rintro ⟨h1, -⟩
          cases h1
        · rintro ⟨-, hall⟩
          exact absurd (hall c (by simp)) (by simp [he])
      · simp only [bfGo, he]
        by_cases hlt : e < be
        · rw [if_pos hlt, ih]
          constructor
          · rintro ⟨h1, -⟩
            cases h1
          · rintro ⟨h1, -⟩
            cases h1
        · rw [if_neg hlt, ih]
          constructor
          · rintro ⟨h1, -⟩
            cases h1
          · rintro ⟨h1, -⟩
            cases h1

theorem bfGo_min (x : List ℚ) (s : ℕ) :
    ∀ (cs : List (List ℕ)) (acc : Option (ℚ × List ℕ)) (e : ℚ) (b : List ℕ),
      bfGo x s cs acc = some (e, b) →
        (∀ e0 b0, acc = some (e0, b0) → e ≤ e0) ∧
        ∀ c ∈ cs, ∀ ec, subsetEnergy x s c = some ec → e ≤ ec := by
  intro cs
  induction cs with
  | nil =>
    intro acc e b h
    simp only [bfGo] at h
    subst h
    refine ⟨?_, by simp⟩
    rintro e0 b0 ⟨⟩
    rfl
  | cons c cs ih =>
    intro acc e b h
    rcases he : subsetEnergy x s c with _ | ec0
    · simp only [bfGo, he] at h
      rcases ih acc e b h with ⟨h1, h2⟩
      refine ⟨h1, ?_⟩
      intro c' hc' ec hec
      rcases List.mem_cons.mp hc' with rfl | hc''
      · rw [he] at hec
        cases hec
      · exact h2 c' hc'' ec hec
    · rcases acc with _ | ⟨be, bs⟩
      · simp only [bfGo, he] at h
        rcases ih (some (ec0, c)) e b h with ⟨h1, h2⟩
        have hee : e ≤ ec0 := h1 ec0 c rfl
        refine ⟨by rintro e0 b0 ⟨⟩, ?_⟩
        intro c' hc' ec hec
        rcases List.mem_cons.mp hc' with rfl | hc''
        · rw [he] at hec
          cases hec
          exact hee
        · exact h2 c' hc'' ec hec
      · simp only [bfGo, he] at h
        by_cases hlt : ec0 < be
        · rw [if_pos hlt] at h
          rcases ih (some (ec0, c)) e b h with ⟨h1, h2⟩
          have hee : e ≤ ec0 := h1 ec0 c rfl
          refine ⟨?_, ?_⟩
          · rintro e0 b0 ⟨⟩
            linarith
          · intro c' hc' ec hec
            rcases List.mem_cons.mp hc' with rfl | hc''
            · rw [he] at hec
              cases hec
              exact hee
            · exact h2 c' hc'' ec hec
        · rw [if_neg hlt] at h
          push_neg at hlt
          rcases ih (some (be, bs)) e b h with ⟨h1, h2⟩
          have hee : e ≤ be := h1 be bs rfl
          refine ⟨?_, ?_⟩
          · rintro e0 b0 ⟨⟩
            exact hee
          · intro c' hc' ec hec
            rcases List.mem_cons.mp hc' with rfl | hc''
            · rw [he] at hec
              cases hec
              linarith
            · exact h2 c' hc'' ec hec

theorem bfGo_mem (x : List ℚ) (s : ℕ) :
    ∀ (cs : List (List ℕ)) (acc : Option (ℚ × List ℕ)) (e : ℚ) (b : List ℕ),
      bfGo x s cs acc = some (e, b) →
        acc = some (e, b) ∨ (b ∈ cs ∧ subsetEnergy x s b = some e) := by
  intro cs
  induction cs with
  | nil =>
    intro acc e b h
    simp only [bfGo] at h
    exact Or.inl h
  | cons c cs ih =>
    intro acc e b h
    rcases he : subsetEnergy x s c with _ | ec0
    · simp only [bfGo, he] at h
      rcases ih acc e b h with h' | ⟨hb, hener⟩
      · exact Or.inl h'
      · exact Or.inr ⟨by simp [hb], hener⟩
    · rcases acc with _ | ⟨be, bs⟩
      · simp only [bfGo, he] at h
        rcases ih (some (ec0, c)) e b h with h' | ⟨hb, hener⟩
        · cases h'
          exact Or.inr ⟨by simp, he⟩
        · exact Or.inr ⟨by simp [hb], hener⟩
      · simp only [bfGo, he] at h
        by_cases hlt : ec0 < be
        · rw [if_pos hlt] at h
          rcases ih (some (ec0, c)) e b h with h' | ⟨hb, hener⟩
          · cases h'
            exact Or.inr ⟨by simp, he⟩
          · exact Or.inr ⟨by simp [hb], hener⟩
        · rw [if_neg hlt] at h
          rcases ih (some (be, bs)) e b h with h' | ⟨hb, hener⟩
          · cases h'
            exact Or.inl rfl
          · exact Or.inr ⟨by simp [hb], hener⟩

theorem bfGo_tie (x : List ℚ) (s : ℕ) :
    ∀ (cs : List (List ℕ)) (e0 : ℚ) (b0 : List ℕ) (e : ℚ) (b : List ℕ),
      bfGo x s cs (some (e0, b0)) = some (e, b) →
        e ≤ e0 ∧ (e = e0 → b = b0) ∧
        (e < e0 → cs.find? (fun c => decide (subsetEnergy x s c = some e)) = some b) := by
  intro cs
  induction cs with
  | nil =>
    intro e0 b0 e b h
    simp only [bfGo] at h
    cases h
    exact ⟨le_refl _, fun _ => rfl, fun hlt => absurd hlt (lt_irrefl _)⟩
  | cons c cs ih =>
    intro e0 b0 e b h
    rcases he : subsetEnergy x s c with _ | ec
    · simp only [bfGo, he] at h
      rcases ih e0 b0 e b h with ⟨h1, h2, h3⟩
      refine ⟨h1, h2, fun hlt => ?_⟩
      rw [List.find?_cons_of_neg _ (by simp [he]), h3 hlt]
    · simp only [bfGo, he] at h
      by_cases hlt0 : ec < e0
      · rw [if_pos hlt0] at h
        rcases ih ec c e b h with ⟨h1, h2, h3⟩
        refine ⟨le_trans h1 (le_of_lt hlt0), fun heq => absurd heq (by linarith), fun _ => ?_⟩
        by_cases heec : e = ec
        · rw [List.find?_cons_of_pos _ (by simp [he, heec])]
          rw [h2 heec]
        · rw [List.find?_cons_of_neg _ (by simp [he]; exact fun hh => heec hh.symm)]
          exact h3 (lt_of_le_of_ne h1 heec)
      · rw [if_neg hlt0] at h
        push_neg at hlt0
        rcases ih e0 b0 e b h with ⟨h1, h2, h3⟩
        refine ⟨h1, h2, fun hlt => ?_⟩
        have : e ≠ ec := by linarith
        rw [List.find?_cons_of_neg _ (by simp [he]; exact fun hh => this hh.symm)]
        exact h3 hlt

theorem bfGo_find (x : List ℚ) (s : ℕ) :
    ∀ (cs : List (List ℕ)) (e : ℚ) (b : List ℕ),
      bfGo x s cs none = some (e, b) →
        cs.find? (fun c => decide (subsetEnergy x s c = some e)) = some b := by
  intro cs
  induction cs with
  | nil =>
    intro e b h
    simp only [bfGo] at h
    cases h
  | cons c cs ih =>
    intro e b h
    rcases he : subsetEnergy x s c with _ | ec
    · simp only [bfGo, he] at h
      rw [List.find?_cons_of_neg _ (by simp [he])]
      exact ih e b h
    · simp only [bfGo, he] at h
      rcases bfGo_tie x s cs ec c e b h with ⟨h1, h2, h3⟩
      by_cases heec : e = ec
      · rw [List.find?_cons_of_pos _ (by simp [he, heec])]
        rw [h2 heec]
      · rw [List.find?_cons_of_neg _ (by simp [he]; exact fun hh => heec hh.symm)]
        exact h3 (lt_of_le_of_ne h1 heec)

/-! ### The inner dp loop: tie-breaking over previous endpoints -/

theorem pCand_cell_none {x : List ℚ} {s : ℕ} {prev : List Cell} {i p : ℕ}
    (h : prev.getD p none = none) : pCand x s prev i p = none := by
  simp only [pCand, h]

theorem pCand_extra_none {x : List ℚ} {s : ℕ} {prev : List Cell} {i p : ℕ}
    {prevE : Option ℚ} {l : List ℕ} (h : prev.getD p none = some (prevE, some l))
    (hx : extra_cost x s i l = none) : pCand x s prev i p = none := by
  rcases prevE with _ | pe
  · simp only [pCand, h]
  · simp only [pCand, h, hx]

theorem pCand_eq_some {x : List ℚ} {s : ℕ} {prev : List Cell} {i p : ℕ}
    {pe : ℚ} {l : List ℕ} {extra : ℚ} (h : prev.getD p none = some (some pe, some l))
    (hx : extra_cost x s i l = some extra) : pCand x s prev i p = some (pe + extra) := by
  simp only [pCand, h, hx]

theorem cellGo_tie (x : List ℚ) (s : ℕ) (prev : List Cell) (i : ℕ) :
    ∀ (ps : List ℕ) (e0 : ℚ) (b0 : Option (List ℕ)) (e : ℚ) (bs : Option (List ℕ)),
      cellGo x s prev i ps (some e0) b0 = .ok (some e, bs) →
        e ≤ e0 ∧ (e = e0 → bs = b0) ∧
        (e < e0 → ∃ p, (ps.find? fun q => decide (pCand x s prev i q = some e)) = some p ∧
          ∃ pe l, prev.getD p none = some (some pe, some l) ∧ bs = some (l ++ [i])) := by
  intro ps
  induction ps with
  | nil =>
    intro e0 b0 e bs h
    simp only [cellGo] at h
    cases h
    exact ⟨le_refl _, fun _ => rfl, fun hlt => absurd hlt (lt_irrefl _)⟩
  | cons p ps ih =>
    intro e0 b0 e bs h
    rcases hcell : prev.getD p none with _ | ⟨prevE, sub⟩
    · simp only [cellGo, hcell] at h
      rcases ih e0 b0 e bs h with ⟨h1, h2, h3⟩
      refine ⟨h1, h2, fun hlt => ?_⟩
      rcases h3 hlt with ⟨p', hp', rest⟩
      refine ⟨p', ?_, rest⟩
      rw [List.find?_cons_of_neg _ (by simp [pCand_cell_none hcell])]
      exact hp'
    · rcases sub with _ | l
      · simp only [cellGo, hcell] at h
        cases h
      · rcases hextra : extra_cost x s i l with _ | extra
        · simp only [cellGo, hcell, hextra] at h
          rcases ih e0 b0 e bs h with ⟨h1, h2, h3⟩
          refine ⟨h1, h2, fun hlt => ?_⟩
          rcases h3 hlt with ⟨p', hp', rest⟩
          refine ⟨p', ?_, rest⟩
          rw [List.find?_cons_of_neg _ (by simp [pCand_extra_none hcell hextra])]
          exact hp'
        · rcases prevE with _ | pe
          · simp only [cellGo, hcell, hextra] at h
            cases h
          · have hcand : pCand x s prev i p = some (pe + extra) := pCand_eq_some hcell hextra
            simp only [cellGo, hcell, hextra] at h
            by_cases hlt0 : pe + extra < e0
            · rw [if_pos hlt0] at h
              rcases ih (pe + extra) (some (l ++ [i])) e bs h with ⟨h1, h2, h3⟩
              refine ⟨le_trans h1 (le_of_lt hlt0), fun heq => absurd heq (by linarith),
                fun _ => ?_⟩
              by_cases heec : e = pe + extra
              · refine ⟨p, ?_, pe, l, hcell, by rw [h2 heec]⟩
                rw [List.find?_cons_of_pos _ (by simp [hcand, heec])]
              · rcases h3 (lt_of_le_of_ne h1 heec) with ⟨p', hp', rest⟩
                refine ⟨p', ?_, rest⟩
                rw [List.find?_cons_of_neg _ (by simp [hcand]; exact fun hh => heec hh.symm)]
                exact hp'
            · rw [if_neg hlt0] at h
              push_neg at hlt0
              rcases ih e0 b0 e bs h with ⟨h1, h2, h3⟩
              refine ⟨h1, h2, fun hlt => ?_⟩
              have hne : e ≠ pe + extra := by linarith
              rcases h3 hlt with ⟨p', hp', rest⟩
              refine ⟨p', ?_, rest⟩
              rw [List.find?_cons_of_neg _ (by simp [hcand]; exact fun hh => hne hh.symm)]
              exact hp'

theorem cellGo_find (x : List ℚ) (s : ℕ) (prev : List Cell) (i : ℕ) :
    ∀ (ps : List ℕ) (e : ℚ) (bs : Option (List ℕ)),
      cellGo x s prev i ps none none = .ok (some e, bs) →
        ∃ p, (ps.find? fun q => decide (pCand x s prev i q = some e)) = some p ∧
          ∃ pe l, prev.getD p none = some (some pe, some l) ∧ bs = some (l ++ [i]) := by
  intro ps
  induction ps with
  | nil =>
    intro e bs h
    simp only [cellGo] at h
    simp at h
  | cons p ps ih =>
    intro e bs h
    rcases hcell : prev.getD p none with _ | ⟨prevE, sub⟩
    · simp only [cellGo, hcell] at h
      rcases ih e bs h with ⟨p', hp', rest⟩
      refine ⟨p', ?_, rest⟩
      rw [List.find?_cons_of_neg _ (by simp [pCand_cell_none hcell])]
      exact hp'
    · rcases sub with _ | l
      · simp only [cellGo, hcell] at h
        cases h
      · rcases hextra : extra_cost x s i l with _ | extra
        · simp only [cellGo, hcell, hextra] at h
          rcases ih e bs h with ⟨p', hp', rest⟩
          refine ⟨p', ?_, rest⟩
          rw [List.find?_cons_of_neg _ (by simp [pCand_extra_none hcell hextra])]
          exact hp'
        · rcases prevE with _ | pe
          · simp only [cellGo, hcell, hextra] at h
            cases h
          · have hcand : pCand x s prev i p = some (pe + extra) := pCand_eq_some hcell hextra
            simp only [cellGo, hcell, hextra] at h
            rcases cellGo_tie x s prev i ps (pe + extra) (some (l ++ [i])) e bs h with
              ⟨h1, h2, h3⟩
            by_cases heec : e = pe + extra
            · refine ⟨p, ?_, pe, l, hcell, by rw [h2 heec]⟩
              rw [List.find?_cons_of_pos _ (by simp [hcand, heec])]
            · rcases h3 (lt_of_le_of_ne h1 heec) with ⟨p', hp', rest⟩
              refine ⟨p', ?_, rest⟩
              rw [List.find?_cons_of_neg _ (by simp [hcand]; exact fun hh => heec hh.symm)]
              exact hp'

/-! ### Structural invariants of the dp table -/

theorem pairwise_lt_le_last : ∀ (l : List ℕ) (p : ℕ), l.Pairwise (· < ·) →
    l.getLast? = some p → ∀ a ∈ l, a ≤ p := by
  intro l
  induction l with
  | nil => simp
  | cons a l ih =>
    intro p hp hlast b hb
    rcases List.pairwise_cons.mp hp with ⟨ha, hp'⟩
    cases l with
    | nil =>
      simp only [List.getLast?_singleton, Option.some.injEq] at hlast
      subst hlast
      simp only [List.mem_singleton] at hb
      exact le_of_eq hb
    | cons c l' =>
      rw [List.getLast?_cons_cons] at hlast
      have hmem : p ∈ c :: l' := List.mem_of_getLast?_eq_some hlast
      rcases List.mem_cons.mp hb with rfl | hb'
      · exact le_of_lt (ha p hmem)
      · exact ih p hp' hlast b hb'

theorem extra_cost_isSome_iff (x : List ℚ) (s i : ℕ) : ∀ (l : List ℕ),
    (extra_cost x s i l).isSome ↔ ∀ q ∈ l, x.getD q 0 < x.getD i 0 := by
  intro l
  induction l with
  | nil => simp [extra_cost]
  | cons q qs ih =>
    by_cases hg : x.getD i 0 - x.getD q 0 ≤ 0
    · simp only [extra_cost, if_pos hg]
      simp only [Option.isSome_none, Bool.false_eq_true, false_iff, not_forall]
      exact ⟨q, by simp, by linarith⟩
    · simp only [extra_cost, if_neg hg]
      push_neg at hg
      rcases hrec : extra_cost x s i qs with _ | v
      · rw [hrec] at ih
        simp only [Option.isSome_none, Bool.false_eq_true, false_iff, not_forall] at ih ⊢
        rcases ih with ⟨q', hq', hlt⟩
        exact ⟨q', by simp [hq'], hlt⟩
      · rw [hrec] at ih
        simp only [Option.isSome_some, true_iff] at ih
        simp only [Option.isSome_some, true_iff, List.mem_cons]
        rintro b (rfl | hb)
        · linarith
        · exact ih b hb

theorem dpSubProps_append (x : List ℚ) (r p i : ℕ) (l : List ℕ)
    (hl : dpSubProps x r l) (hlast : l.getLast? = some p) (hpi : p < i)
    (hin : i < x.length) (hgap : ∀ q ∈ l, x.getD q 0 < x.getD i 0) :
    dpSubProps x (r + 1) (l ++ [i]) ∧ (l ++ [i]).getLast? = some i := by
  rcases hl with ⟨hpw, hlen, hbound, hgp⟩
  have hlt : ∀ a ∈ l, a < i := fun a ha => lt_of_le_of_lt (pairwise_lt_le_last l p hpw hlast a ha) hpi
  refine ⟨⟨?_, ?_, ?_, ?_⟩, List.getLast?_concat l⟩
  · rw [List.pairwise_append]
    exact ⟨hpw, List.pairwise_singleton _ _, fun a ha b hb => by
      rw [List.mem_singleton.mp hb]; exact hlt a ha⟩
  · simp [hlen]
  · intro a ha
    rcases List.mem_append.mp ha with ha' | ha'
    · exact hbound a ha'
    · rw [List.mem_singleton.mp ha']
      exact hin
  · rw [List.pairwise_append]
    exact ⟨hgp, List.pairwise_singleton _ _, fun a ha b hb => by
      rw [List.mem_singleton.mp hb]; exact hgap a ha⟩

theorem cellGo_acc_good (x : List ℚ) (s : ℕ) (prev : List Cell) (i : ℕ) (Q : List ℕ → Prop) :
    ∀ (ps : List ℕ),
      (∀ p ∈ ps, ∀ pe l extra, prev.getD p none = some (some pe, some l) →
        extra_cost x s i l = some extra → Q (l ++ [i])) →
      ∀ (best : Option ℚ) (bsub : Option (List ℕ)) (out : CellVal),
        cellGo x s prev i ps best bsub = .ok out →
        ((best.isSome ↔ bsub.isSome) ∧ ∀ l', bsub = some l' → Q l') →
        (out.1.isSome ↔ out.2.isSome) ∧ ∀ l', out.2 = some l' → Q l' := by
  intro ps
  induction ps with
  | nil =>
    intro _ best bsub out h hacc
    simp only [cellGo] at h
    cases h
    exact hacc
  | cons p ps ih =>
    intro HQ best bsub out h hacc
    have HQtail : ∀ p' ∈ ps, ∀ pe l extra, prev.getD p' none = some (some pe, some l) →
        extra_cost x s i l = some extra → Q (l ++ [i]) :=
      fun p' hp' => HQ p' (List.mem_cons_of_mem _ hp')
    rcases hcell : prev.getD p none with _ | ⟨prevE, sub⟩
    · simp only [cellGo, hcell] at h
      exact ih HQtail best bsub out h hacc
    · rcases sub with _ | l
      · simp only [cellGo, hcell] at h
        cases h
      · rcases hextra : extra_cost x s i l with _ | extra
        · simp only [cellGo, hcell, hextra] at h
          exact ih HQtail best bsub out h hacc
        · rcases prevE with _ | pe
          · simp only [cellGo, hcell, hextra] at h
            cases h
          · have hq : Q (l ++ [i]) := HQ p (by simp) pe l extra hcell hextra
            rcases best with _ | b
            · simp only [cellGo, hcell, hextra] at h
              refine ih HQtail _ _ out h ⟨by simp, ?_⟩
              rintro l' ⟨⟩
              exact hq
            · simp only [cellGo, hcell, hextra] at h
              by_cases hlt : pe + extra < b
              · rw [if_pos hlt] at h
                refine ih HQtail _ _ out h ⟨by simp, ?_⟩
                rintro l' ⟨⟩
                exact hq
              · rw [if_neg hlt] at h
                exact ih HQtail _ _ out h hacc

theorem cellCompute_good (x : List ℚ) (s : ℕ) (prev : List Cell) (r i : ℕ) (Q : List ℕ → Prop)
    (HQ : ∀ p ∈ List.range' (r - 2) (i - (r - 2)), ∀ pe l extra,
      prev.getD p none = some (some pe, some l) → extra_cost x s i l = some extra →
        Q (l ++ [i]))
    (out : CellVal) (h : cellCompute x s prev r i = .ok out) :
    (out.1.isSome ↔ out.2.isSome) ∧ ∀ l', out.2 = some l' → Q l' := by
  exact cellGo_acc_good x s prev i Q _ HQ none none out h ⟨by simp, by rintro l' ⟨⟩⟩

theorem buildRow_ok (x : List ℚ) (s : ℕ) (prev : List Cell) (r : ℕ) :
    ∀ (L : List ℕ) (row : List Cell), buildRow x s prev r L = .ok row →
      row.length = L.length ∧ ∀ j, j < L.length →
        ((L.getD j 0 < r - 1 ∧ row.getD j none = none) ∨
          (¬ L.getD j 0 < r - 1 ∧
            ∃ cc, cellCompute x s prev r (L.getD j 0) = .ok cc ∧ row.getD j none = some cc)) := by
  intro L
  induction L with
  | nil =>
    intro row h
    simp only [buildRow] at h
    cases h
    simp
  | cons i L ih =>
    intro row h
    by_cases hcond : i < r - 1
    · rw [buildRow, if_pos hcond] at h
      rcases hbr : buildRow x s prev r L with e | rest
      · rw [hbr] at h
        cases h
      · rw [hbr] at h
        cases h
        rcases ih rest hbr with ⟨hlen, hpt⟩
        refine ⟨by simp [hlen], ?_⟩
        intro j hj
        cases j with
        | zero => exact Or.inl ⟨hcond, rfl⟩
        | succ j =>
          simp only [List.getD_cons_succ]
          exact hpt j (by simpa using hj)
    · rw [buildRow, if_neg hcond] at h
      rcases hcc : cellCompute x s prev r i with e | cc
      · rw [hcc] at h
        cases h
      · rw [hcc] at h
        rcases hbr : buildRow x s prev r L with e | rest
        · rw [hbr] at h
          cases h
        · rw [hbr] at h
          cases h
          rcases ih rest hbr with ⟨hlen, hpt⟩
          refine ⟨by simp [hlen], ?_⟩
          intro j hj
          cases j with
          | zero => exact Or.inr ⟨hcond, cc, hcc, rfl⟩
          | succ j =>
            simp only [List.getD_cons_succ]
            exact hpt j (by simpa using hj)

theorem baseRow_getD (x : List ℚ) (p : ℕ) :
    ((List.range x.length).map fun i => (some (some (0 : ℚ), some [i]) : Cell)).getD p none =
      if p < x.length then some (some (0 : ℚ), some [p]) else none := by
  by_cases hp : p < x.length
  · rw [if_pos hp]
    rw [List.getD_eq_getElem?_getD, List.getElem?_map, List.getElem?_range hp]
    rfl
  · rw [if_neg hp]
    rw [List.getD_eq_getElem?_getD, List.getElem?_eq_none (by simpa using hp)]
    rfl

theorem goodRow_base (x : List ℚ) :
    GoodRow x 1 ((List.range x.length).map fun i => (some (some (0 : ℚ), some [i]) : Cell)) := by
  intro p cnt hcnt
  rw [baseRow_getD] at hcnt
  by_cases hp : p < x.length
  · rw [if_pos hp] at hcnt
    cases hcnt
    constructor
    · simp
    · rintro l ⟨⟩
      exact ⟨⟨List.pairwise_singleton _ _, rfl, by simpa using hp,
        List.pairwise_singleton _ _⟩, rfl⟩
  · rw [if_neg hp] at hcnt
    cases hcnt

theorem goodRow_step (x : List ℚ) (s : ℕ) (r : ℕ) (hr : 1 ≤ r) (prev row : List Cell)
    (hprev : GoodRow x r prev)
    (hrow : buildRow x s prev (r + 1) (List.range x.length) = .ok row) :
    GoodRow x (r + 1) row := by
  intro p cnt hcnt
  rcases buildRow_ok x s prev (r + 1) (List.range x.length) row hrow with ⟨hlen, hpt⟩
  by_cases hp : p < x.length
  · have hLp : (List.range x.length).getD p 0 = p := by
      rw [List.getD_eq_getElem?_getD, List.getElem?_range hp]
      rfl
    have hj := hpt p (by simpa using hp)
    rw [hLp] at hj
    rcases hj with ⟨_, hnone⟩ | ⟨_, cc, hcc, hgetD⟩
    · rw [hnone] at hcnt
      cases hcnt
    · rw [hgetD] at hcnt
      injection hcnt with hcnt2
      subst hcnt2
      have hgood := cellCompute_good x s prev (r + 1) p
        (fun l' => dpSubProps x (r + 1) l' ∧ l'.getLast? = some p) ?_ cc hcc
      · exact ⟨hgood.1, fun l hl => hgood.2 l hl⟩
      · intro q hq pe l extra hqcell hex
        have hqmem := List.mem_range'_1.mp hq
        have hqp : q < p := by omega
        have hqgood := hprev q _ hqcell
        rcases hqgood.2 l rfl with ⟨hprops, hlast⟩
        have hgaps : ∀ q' ∈ l, x.getD q' 0 < x.getD p 0 :=
          (extra_cost_isSome_iff x s p l).mp (by rw [hex]; simp)
        exact dpSubProps_append x r q p l hprops hlast hqp hp hgaps
  · rw [List.getD_eq_getElem?_getD,
      List.getElem?_eq_none (by simp only [hlen, List.length_range]; omega)] at hcnt
    cases hcnt

theorem buildRows_good (x : List ℚ) (s : ℕ) :
    ∀ (m r0 : ℕ) (row row' : List Cell), 1 ≤ r0 → GoodRow x r0 row →
      buildRows x s (List.range' (r0 + 1) m) row = .ok row' →
      GoodRow x (r0 + m) row' := by
  intro m
  induction m with
  | zero =>
    intro r0 row row' _ hg h
    simp only [List.range'_zero, buildRows] at h
    cases h
    exact hg
  | succ m ih =>
    intro r0 row row' hr hg h
    rw [List.range'_succ] at h
    simp only [buildRows] at h
    rcases hbr : buildRow x s row (r0 + 1) (List.range x.length) with e | nr
    · rw [hbr] at h
      cases h
    · rw [hbr] at h
      have hg' : GoodRow x (r0 + 1) nr := goodRow_step x s r0 hr row nr hg hbr
      have hres := ih (r0 + 1) nr row' (by omega) hg' h
      rw [show r0 + (m + 1) = r0 + 1 + m by omega]
      exact hres

theorem finalScan_good (x : List ℚ) (k : ℕ) (rowk : List Cell)
    (hrow : ∀ i cnt, rowk.getD i none = some cnt → GoodCell x k i cnt) :
    ∀ (is : List ℕ) (acc out : CellVal),
      finalScan rowk is acc = .ok out →
      ((acc.1.isSome ↔ acc.2.isSome) ∧ ∀ l, acc.2 = some l → dpSubProps x k l) →
      (out.1.isSome ↔ out.2.isSome) ∧ ∀ l, out.2 = some l → dpSubProps x k l := by
  intro is
  induction is with
  | nil =>
    intro acc out h hacc
    simp only [finalScan] at h
    cases h
    exact hacc
  | cons i is ih =>
    rintro ⟨ae, asub⟩ out h hacc
    rcases hcell : rowk.getD i none with _ | ⟨energy, subset⟩
    · simp only [finalScan, hcell] at h
      exact ih _ out h hacc
    · have hgc := hrow i _ hcell
      rcases ae with _ | bf
      · simp only [finalScan, hcell] at h
        exact ih _ out h ⟨hgc.1, fun l hl => (hgc.2 l hl).1⟩
      · rcases energy with _ | e
        · simp only [finalScan, hcell] at h
          cases h
        · simp only [finalScan, hcell] at h
          by_cases hlt : e < bf
          · rw [if_pos hlt] at h
            refine ih _ out h ⟨?_, fun l hl => (hgc.2 l hl).1⟩
            have := hgc.1
            simpa using this
          · rw [if_neg hlt] at h
            exact ih _ out h hacc

theorem dp_subset_ok_props (x : List ℚ) (k s : ℕ) (out : CellVal) (hk : k ≠ 0)
    (h : dp_subset x k s = .ok out) :
    (out.1.isSome ↔ out.2.isSome) ∧ ∀ l, out.2 = some l → dpSubProps x k l := by
  rw [dp_subset, if_neg hk] at h
  rcases hbr : buildRows x s (List.range' 2 (k - 1))
      ((List.range x.length).map fun i => (some (some (0 : ℚ), some [i]) : Cell)) with e | rowk
  · rw [hbr] at h
    cases h
  · rw [hbr] at h
    have hg : GoodRow x (1 + (k - 1)) rowk :=
      buildRows_good x s (k - 1) 1 _ rowk (le_refl 1) (goodRow_base x) hbr
    have hgk : GoodRow x k rowk := by
      rw [show 1 + (k - 1) = k by omega] at hg
      exact hg
    exact finalScan_good x k rowk (fun i cnt hc => hgk i cnt hc) _ (none, none) out h
      ⟨by simp, by rintro l ⟨⟩⟩

/-! ### Claim theorems -/

/-- C2 counterexample: on the input `x = [5, 5, 5]`, `k = 3`, `s = 1`, no
valid size-3 subset exists (the single size-3 combination contains a pair at
zero distance), yet `dp_subset` raises a TypeError instead of returning the
absent result: at `r = 3` it iterates the `None` subset stored in the empty
cell `(2, 1)`.  This refutes the claim that both solvers never raise. -/
theorem dp_raises_on_all_duplicate_input :
    (∀ c ∈ combinations 3 (List.range ([5, 5, 5] : List ℚ).length),
      subsetEnergy [5, 5, 5] 1 c = none) ∧
    dp_subset [5, 5, 5] 3 1 = .error .typeError := by
  constructor <;> decide

/-- C2 amended: on every input on which no valid size-k subset exists (every
size-k combination is discarded; in particular when k exceeds n), the
brute-force solver returns the absent result and never raises, and the DP
solver never returns a present result: any non-exceptional DP return is the
absent pair, but the DP solver may raise a TypeError instead (for k of at
least 3, see the counterexample). -/
theorem no_valid_subset_absent_result (x : List ℚ) (k s : ℕ)
    (hnone : ∀ c ∈ combinations k (List.range x.length), subsetEnergy x s c = none) :
    brute_force_subset x k s = none ∧
    ∀ out, dp_subset x k s = .ok out → out = (none, none) := by
  constructor
  · rw [brute_force_subset, bfGo_eq_none_iff]
    exact ⟨rfl, hnone⟩
  · intro out hout
    by_cases hk : k = 0
    · rw [dp_subset, if_pos hk] at hout
      cases hout
    · have h := dp_subset_ok_props x k s out hk hout
      rcases out with ⟨o1, o2⟩
      rcases hsub : o2 with _ | l
      · rcases ho1 : o1 with _ | e1
        · rfl
        · exfalso
          have h2 := h.1.mp (by rw [ho1]; simp)
          rw [hsub] at h2
          simp at h2
      · exfalso
        rcases h.2 l hsub with ⟨h1, h2, h3, h4⟩
        have hmem := valid_mem_combinations x k l ⟨h1, h2, h3, h4⟩
        have hisSome := (subsetEnergy_isSome_iff x s l).mpr h4
        rw [hnone l hmem] at hisSome
        simp at hisSome

theorem no_valid_subset_absent_result_witness :
    brute_force_subset [5, 5] 2 1 = none ∧
      ∀ out, dp_subset [5, 5] 2 1 = .ok out → out = (none, none) :=
  no_valid_subset_absent_result [5, 5] 2 1 (by decide)

/-- C3: for the input `x = [0, 1, 3, 6]` with `k = 2` and `s = 1`, both
solvers return energy `1/6` (the value `1/(6-0)^1`) and the subset
`[0, 3]`. -/
theorem example_one_both_solvers :
    dp_subset [0, 1, 3, 6] 2 1 = .ok (some (1 / 6), some [0, 3]) ∧
    brute_force_subset [0, 1, 3, 6] 2 1 = some (1 / 6, [0, 3]) := by
  constructor <;> decide

/-- C4: both solvers break ties by strict less-than, so the earliest
candidate wins.  First part: the subset returned by `brute_force_subset` is
the first combination, in lexicographic enumeration order, whose energy
equals the returned (minimal) energy; later equal-energy combinations never
replace it.  Second part: the subset stored by the inner dp loop for a cell
comes from the first previous endpoint p, in ascending order, whose
candidate value equals the stored (minimal) value; a later p with an equal
candidate never replaces it. -/
theorem tie_breaking_strict_less :
    (∀ (x : List ℚ) (k s : ℕ) (e : ℚ) (b : List ℕ),
      brute_force_subset x k s = some (e, b) →
      (combinations k (List.range x.length)).find?
        (fun c => decide (subsetEnergy x s c = some e)) = some b) ∧
    (∀ (x : List ℚ) (s : ℕ) (prev : List Cell) (r i : ℕ) (bv : ℚ) (bs : Option (List ℕ)),
      cellCompute x s prev r i = .ok (some bv, bs) →
      ∃ p, ((List.range' (r - 2) (i - (r - 2))).find?
          fun q => decide (pCand x s prev i q = some bv)) = some p ∧
        ∃ pe l, prev.getD p none = some (some pe, some l) ∧ bs = some (l ++ [i])) := by
  constructor
  · intro x k s e b h
    exact bfGo_find x s _ e b h
  · intro x s prev r i bv bs h
    exact cellGo_find x s prev i _ bv bs h

theorem tie_breaking_strict_less_witness :
    ((combinations 3 (List.range ([0, 1, 2, 3] : List ℚ).length)).find?
        (fun c => decide (subsetEnergy [0, 1, 2, 3] 1 c = some (11 / 6))) = some [0, 1, 3]) ∧
    ∃ p, ((List.range' (3 - 2) (3 - (3 - 2))).find?
        fun q => decide (pCand [0, 1, 2, 3] 1
          [none, some (some 1, some [0, 1]), some (some (1 / 2 : ℚ), some [0, 2]),
            some (some (1 / 3 : ℚ), some [0, 3])] 3 q = some (11 / 6))) = some p ∧
      ∃ pe l, ([none, some (some 1, some [0, 1]), some (some (1 / 2 : ℚ), some [0, 2]),
          some (some (1 / 3 : ℚ), some [0, 3])] : List Cell).getD p none =
            some (some pe, some l) ∧
        (some [0, 1, 3] : Option (List ℕ)) = some (l ++ [3]) :=
  ⟨tie_breaking_strict_less.1 [0, 1, 2, 3] 3 1 (11 / 6) [0, 1, 3] (by decide),
   tie_breaking_strict_less.2 [0, 1, 2, 3] 1
     [none, some (some 1, some [0, 1]), some (some (1 / 2 : ℚ), some [0, 2]),
       some (some (1 / 3 : ℚ), some [0, 3])] 3 3 (11 / 6) (some [0, 1, 3]) (by decide)⟩

/-- C8: for a fixed pair at gap d, the pairwise contribution `1/d^s` is
strictly increasing in the (integer) exponent s when 0 < d < 1 and strictly
decreasing in s when d > 1. -/
theorem pair_energy_monotone_in_s (d : ℚ) (s1 s2 : ℕ) (hs : s1 < s2) :
    (0 < d → d < 1 → pair_energy d s1 < pair_energy d s2) ∧
    (1 < d → pair_energy d s2 < pair_energy d s1) := by
  constructor
  · intro hd0 hd1
    unfold pair_energy
    have h2 : d ^ s2 < d ^ s1 := pow_lt_pow_right_of_lt_one₀ hd0 hd1 hs
    exact one_div_lt_one_div_of_lt (pow_pos hd0 s2) h2
  · intro hd1
    unfold pair_energy
    have h2 : d ^ s1 < d ^ s2 := pow_lt_pow_right₀ hd1 hs
    exact one_div_lt_one_div_of_lt (pow_pos (by linarith) s1) h2

theorem pair_energy_monotone_in_s_witness :
    pair_energy (1 / 2) 1 < pair_energy (1 / 2) 2 ∧ pair_energy 2 2 < pair_energy 2 1 :=
  ⟨(pair_energy_monotone_in_s (1 / 2) 1 2 (by decide)).1 (by decide) (by decide),
   (pair_energy_monotone_in_s 2 1 2 (by decide)).2 (by decide)⟩

/-- C10: for k = 0 and a non-empty point list the two solvers diverge:
`brute_force_subset` returns energy 0 with the empty subset (the single
empty combination is valid with zero energy), while both dp solvers raise an
IndexError, because the table has only `k + 1 = 1` rows but the base case
writes row 1 unconditionally. -/
theorem k_zero_brute_force_dp_divergence (x : List ℚ) (pts : List (ℝ × ℝ)) (s : ℕ)
    (hx : x ≠ []) (hpts : pts ≠ []) :
    dp_subset x 0 s = .error .indexError ∧
    brute_force_subset x 0 s = some (0, []) ∧
    dp_subset_selection pts 0 s = .error .indexError := by
  refine ⟨by simp [dp_subset], ?_, by simp [dp_subset_selection]⟩
  have h1 : combinations 0 (List.range x.length) = [[]] := by cases hr : List.range x.length <;> rfl
  rw [brute_force_subset, h1]
  simp only [bfGo, subsetEnergy]

theorem k_zero_brute_force_dp_divergence_witness :
    dp_subset [1] 0 1 = .error .indexError ∧
    brute_force_subset [1] 0 1 = some (0, []) ∧
    dp_subset_selection [(0, 0)] 0 1 = .error .indexError :=
  k_zero_brute_force_dp_divergence [1] [(0, 0)] 1 (by decide) (by simp)

/-! ### The base case k = 1 -/

theorem combinations_zero (l : List ℕ) : combinations 0 l = [[]] := by
  cases l <;> rfl

theorem subsetEnergy_singleton (x : List ℚ) (s a : ℕ) :
    subsetEnergy x s [a] = some 0 := by
  simp [subsetEnergy, costAgainstTail]

theorem finalScan_all_zero (rowk : List Cell) :
    ∀ (is : List ℕ), (∀ i ∈ is, rowk.getD i none = some (some 0, some [i])) →
      ∀ (l0 : Option (List ℕ)), finalScan rowk is (some 0, l0) = .ok (some 0, l0) := by
  intro is
  induction is with
  | nil =>
    intro _ l0
    simp [finalScan]
  | cons i is ih =>
    intro hall l0
    have hcell : rowk.getD i none = some (some 0, some [i]) := hall i (by simp)
    simp only [finalScan, hcell]
    rw [if_neg (lt_irrefl (0 : ℚ))]
    exact ih (fun j hj => hall j (by simp [hj])) l0

theorem bfGo_all_zero (x : List ℚ) (s : ℕ) :
    ∀ (cs : List (List ℕ)), (∀ c ∈ cs, subsetEnergy x s c = some 0) →
      ∀ (b0 : List ℕ), bfGo x s cs (some (0, b0)) = some (0, b0) := by
  intro cs
  induction cs with
  | nil =>
    intro _ b0
    simp [bfGo]
  | cons c cs ih =>
    intro hall b0
    have hc : subsetEnergy x s c = some 0 := hall c (by simp)
    simp only [bfGo, hc]
    rw [if_neg (lt_irrefl (0 : ℚ))]
    exact ih (fun c' hc' => hall c' (by simp [hc'])) b0

theorem mem_combinations_one (t : List ℕ) (c : List ℕ) (h : c ∈ combinations 1 t) :
    ∃ a, c = [a] := by
  rcases (mem_combinations t 1 c).mp h with ⟨-, hlen⟩
  exact List.length_eq_one.mp hlen

/-- C6: for every non-empty point sequence and k = 1 (any s), the DP solver
returns energy 0 and a one-element subset holding a valid index, and the
brute-force solver returns energy 0. -/
theorem k_eq_one_zero_energy (x : List ℚ) (s : ℕ) (hx : x ≠ []) :
    (∃ i, i < x.length ∧ dp_subset x 1 s = .ok (some 0, some [i])) ∧
    (∃ b, brute_force_subset x 1 s = some (0, b)) := by
  have hn : 1 ≤ x.length := by
    cases x with
    | nil => exact absurd rfl hx
    | cons a t => simp
  constructor
  · refine ⟨0, by omega, ?_⟩
    rw [dp_subset, if_neg one_ne_zero]
    have hrows : buildRows x s (List.range' 2 (1 - 1))
        ((List.range x.length).map fun i => (some (some (0 : ℚ), some [i]) : Cell)) =
          .ok ((List.range x.length).map fun i => (some (some (0 : ℚ), some [i]) : Cell)) := by
      simp [buildRows]
    rw [hrows]
    have hsplit : List.range' (1 - 1) (x.length - (1 - 1)) =
        0 :: List.range' 1 (x.length - 1) := by
      have h2 : x.length - (1 - 1) = (x.length - 1) + 1 := by omega
      rw [h2, List.range'_succ]
    rw [hsplit]
    have hcell0 : ((List.range x.length).map fun i =>
        (some (some (0 : ℚ), some [i]) : Cell)).getD 0 none = some (some 0, some [0]) := by
      rw [baseRow_getD, if_pos (by omega)]
    simp only [finalScan, hcell0]
    exact finalScan_all_zero _ _ (fun i hi => by
      rcases List.mem_range'_1.mp hi with ⟨h1, h2⟩
      rw [baseRow_getD, if_pos (by omega)]) (some [0])
  · refine ⟨[0], ?_⟩
    rw [brute_force_subset]
    have hsplit : List.range x.length = 0 :: List.range' 1 (x.length - 1) := by
      rw [List.range_eq_range']
      have h2 : x.length = (x.length - 1) + 1 := by omega
      rw [h2, List.range'_succ]
      norm_num
    rw [hsplit]
    have hcomb : combinations 1 (0 :: List.range' 1 (x.length - 1)) =
        [0] :: combinations 1 (List.range' 1 (x.length - 1)) := by
      rw [combinations, combinations_zero]
      rfl
    rw [hcomb]
    simp only [bfGo, subsetEnergy_singleton]
    exact bfGo_all_zero x s _ (fun c hc => by
      rcases mem_combinations_one _ c hc with ⟨a, rfl⟩
      exact subsetEnergy_singleton x s a) [0]

/-! ### Sorted inputs: the dp never reaches an invalid branch -/

theorem sorted_getD_lt (x : List ℚ) (hs : x.Pairwise (· < ·)) (a b : ℕ) (hab : a < b)
    (hb : b < x.length) : x.getD a 0 < x.getD b 0 := by
  have ha : a < x.length := lt_trans hab hb
  have h := List.pairwise_iff_getElem.mp hs a b ha hb hab
  rw [List.getD_eq_getElem?_getD, List.getElem?_eq_getElem ha,
    List.getD_eq_getElem?_getD, List.getElem?_eq_getElem hb]
  simpa using h

theorem cellGo_total_present (x : List ℚ) (s : ℕ) (prev : List Cell) (i : ℕ) :
    ∀ (ps : List ℕ),
      (∀ p ∈ ps, ∀ cnt, prev.getD p none = some cnt → ∃ pe l, cnt = (some pe, some l)) →
      ∀ (best : Option ℚ) (bsub : Option (List ℕ)),
        ∃ out, cellGo x s prev i ps best bsub = .ok out ∧
          (best.isSome → out.1.isSome) ∧
          (∀ p ∈ ps, ∀ pe l, prev.getD p none = some (some pe, some l) →
            (extra_cost x s i l).isSome → out.1.isSome) := by
  intro ps
  induction ps with
  | nil =>
    intro _ best bsub
    exact ⟨(best, bsub), rfl, fun h => h, by simp⟩
  | cons p ps ih =>
    intro hsafe best bsub
    have hsafetail : ∀ p' ∈ ps, ∀ cnt, prev.getD p' none = some cnt →
        ∃ pe l, cnt = (some pe, some l) :=
      fun p' hp' => hsafe p' (List.mem_cons_of_mem _ hp')
    rcases hcell : prev.getD p none with _ | cnt
    · obtain ⟨out, hout, hmono, hpres⟩ := ih hsafetail best bsub
      refine ⟨out, by simp only [cellGo, hcell]; exact hout, hmono, ?_⟩
      intro p' hp' pe l hcell' hex
      rcases List.mem_cons.mp hp' with rfl | hp''
      · rw [hcell] at hcell'
        cases hcell'
      · exact hpres p' hp'' pe l hcell' hex
    · obtain ⟨pe0, l0, rfl⟩ := hsafe p (by simp) cnt hcell
      rcases hextra : extra_cost x s i l0 with _ | extra
      · obtain ⟨out, hout, hmono, hpres⟩ := ih hsafetail best bsub
        refine ⟨out, by simp only [cellGo, hcell, hextra]; exact hout, hmono, ?_⟩
        intro p' hp' pe l hcell' hex
        rcases List.mem_cons.mp hp' with rfl | hp''
        · rw [hcell] at hcell'
          injection hcell' with h2
          cases h2
          rw [hextra] at hex
          cases hex
        · exact hpres p' hp'' pe l hcell' hex
      · rcases best with _ | b
        · obtain ⟨out, hout, hmono, -⟩ :=
            ih hsafetail (some (pe0 + extra)) (some (l0 ++ [i]))
          have hsome := hmono (by simp)
          exact ⟨out, by simp only [cellGo, hcell, hextra]; exact hout,
            fun _ => hsome, fun _ _ _ _ _ _ => hsome⟩
        · by_cases hlt : pe0 + extra < b
          · obtain ⟨out, hout, hmono, -⟩ :=
              ih hsafetail (some (pe0 + extra)) (some (l0 ++ [i]))
            have hsome := hmono (by simp)
            refine ⟨out, ?_, fun _ => hsome, fun _ _ _ _ _ _ => hsome⟩
            simp only [cellGo, hcell, hextra]
            rw [if_pos hlt]
            exact hout
          · obtain ⟨out, hout, hmono, -⟩ := ih hsafetail (some b) bsub
            have hsome := hmono (by simp)
            refine ⟨out, ?_, fun _ => hsome, fun _ _ _ _ _ _ => hsome⟩
            simp only [cellGo, hcell, hextra]
            rw [if_neg hlt]
            exact hout

theorem buildRow_total (x : List ℚ) (s : ℕ) (prev : List Cell) (r : ℕ) :
    ∀ (L : List ℕ),
      (∀ i ∈ L, ¬ i < r - 1 → ∃ cc, cellCompute x s prev r i = .ok cc) →
      ∃ row, buildRow x s prev r L = .ok row := by
  intro L
  induction L with
  | nil => exact fun _ => ⟨[], rfl⟩
  | cons i L ih =>
    intro hall
    obtain ⟨rest, hrest⟩ := ih fun j hj => hall j (List.mem_cons_of_mem _ hj)
    by_cases hcond : i < r - 1
    · refine ⟨none :: rest, ?_⟩
      rw [buildRow, if_pos hcond, hrest]
    · obtain ⟨cc, hcc⟩ := hall i (by simp) hcond
      refine ⟨some cc :: rest, ?_⟩
      rw [buildRow, if_neg hcond, hcc, hrest]

theorem fullRow_step (x : List ℚ) (s : ℕ) (hs : x.Pairwise (· < ·)) (r : ℕ) (hr : 1 ≤ r)
    (prev : List Cell)
    (hfull : ∀ p, r - 1 ≤ p → p < x.length →
      ∃ e l, prev.getD p none = some (some e, some l) ∧
        dpSubProps x r l ∧ l.getLast? = some p) :
    ∃ row, buildRow x s prev (r + 1) (List.range x.length) = .ok row ∧
      ∀ i, r ≤ i → i < x.length →
        ∃ e l, row.getD i none = some (some e, some l) ∧
          dpSubProps x (r + 1) l ∧ l.getLast? = some i := by
  have hsafe : ∀ i, r ≤ i → i < x.length →
      ∃ cc, cellCompute x s prev (r + 1) i = .ok cc ∧ cc.1.isSome := by
    intro i hri hin
    have hps : ∀ p ∈ List.range' ((r + 1) - 2) (i - ((r + 1) - 2)), r - 1 ≤ p ∧ p < i := by
      intro p hp
      have := List.mem_range'_1.mp hp
      omega
    have hsafe' : ∀ p ∈ List.range' ((r + 1) - 2) (i - ((r + 1) - 2)), ∀ cnt,
        prev.getD p none = some cnt → ∃ pe l, cnt = (some pe, some l) := by
      intro p hp cnt hcnt
      rcases hps p hp with ⟨h1, h2⟩
      rcases hfull p h1 (by omega) with ⟨e, l, hcell, -, -⟩
      rw [hcell] at hcnt
      injection hcnt with h3
      exact ⟨e, l, h3.symm⟩
    obtain ⟨out, hout, -, hpres⟩ := cellGo_total_present x s prev i _ hsafe' none none
    refine ⟨out, hout, ?_⟩
    have hm : (i - 1) ∈ List.range' ((r + 1) - 2) (i - ((r + 1) - 2)) := by
      rw [List.mem_range'_1]
      omega
    rcases hfull (i - 1) (by omega) (by omega) with ⟨pe, l, hcell, hprops, hlast⟩
    have hgaps : (extra_cost x s i l).isSome := by
      rw [extra_cost_isSome_iff]
      intro q hq
      have hqle : q ≤ i - 1 := pairwise_lt_le_last l (i - 1) hprops.1 hlast q hq
      exact sorted_getD_lt x hs q i (by omega) hin
    exact hpres (i - 1) hm pe l hcell hgaps
  obtain ⟨row, hrow⟩ := buildRow_total x s prev (r + 1) (List.range x.length) (by
    intro i hi hni
    have hin : i < x.length := List.mem_range.mp hi
    rcases hsafe i (by omega) hin with ⟨cc, hcc, -⟩
    exact ⟨cc, hcc⟩)
  refine ⟨row, hrow, ?_⟩
  intro i hri hin
  rcases buildRow_ok x s prev (r + 1) _ row hrow with ⟨hlen, hpt⟩
  have hLp : (List.range x.length).getD i 0 = i := by
    rw [List.getD_eq_getElem?_getD, List.getElem?_range hin]
    rfl
  have hj := hpt i (by simpa using hin)
  rw [hLp] at hj
  rcases hj with ⟨hlt, -⟩ | ⟨-, cc, hcc, hgetD⟩
  · omega
  · rcases hsafe i hri hin with ⟨cc', hcc', hpres⟩
    rw [hcc] at hcc'
    injection hcc' with hcc2
    rw [← hcc2] at hpres
    have hQ := cellCompute_good x s prev (r + 1) i
      (fun l' => dpSubProps x (r + 1) l' ∧ l'.getLast? = some i) ?_ cc hcc
    · obtain ⟨e0, he0⟩ := Option.isSome_iff_exists.mp hpres
      have hsub := hQ.1.mp (by rw [he0]; simp)
      obtain ⟨l', hl'⟩ := Option.isSome_iff_exists.mp hsub
      rcases hQ.2 l' hl' with ⟨hp1, hp2⟩
      refine ⟨e0, l', ?_, hp1, hp2⟩
      rw [hgetD]
      rcases cc with ⟨c1, c2⟩
      simp only at he0 hl'
      rw [he0, hl']
    · intro q hq pe l extra hqcell hex
      have hqm := List.mem_range'_1.mp hq
      rcases hfull q (by omega) (by omega) with ⟨e', l'', hcell', hprops', hlast'⟩
      rw [hcell'] at hqcell
      injection hqcell with h3
      injection h3 with h4 h5
      injection h4 with h4
      injection h5 with h5
      subst h4
      subst h5
      exact dpSubProps_append x r q i _ hprops' hlast' (by omega) hin
        ((extra_cost_isSome_iff x s i _).mp (by rw [hex]; simp))

theorem fullRows_present (x : List ℚ) (s : ℕ) (hs : x.Pairwise (· < ·)) :
    ∀ (m r0 : ℕ) (row : List Cell), 1 ≤ r0 →
      (∀ p, r0 - 1 ≤ p → p < x.length →
        ∃ e l, row.getD p none = some (some e, some l) ∧
          dpSubProps x r0 l ∧ l.getLast? = some p) →
      ∃ row', buildRows x s (List.range' (r0 + 1) m) row = .ok row' ∧
        ∀ p, (r0 + m) - 1 ≤ p → p < x.length →
          ∃ e l, row'.getD p none = some (some e, some l) ∧
            dpSubProps x (r0 + m) l ∧ l.getLast? = some p := by
  intro m
  induction m with
  | zero =>
    intro r0 row hr hfull
    refine ⟨row, by simp [buildRows], ?_⟩
    simpa using hfull
  | succ m ih =>
    intro r0 row hr hfull
    obtain ⟨nr, hnr, hnrfull⟩ := fullRow_step x s hs r0 hr row hfull
    have hnrfull' : ∀ p, (r0 + 1) - 1 ≤ p → p < x.length →
        ∃ e l, nr.getD p none = some (some e, some l) ∧
          dpSubProps x (r0 + 1) l ∧ l.getLast? = some p := by
      intro p hp hpn
      exact hnrfull p (by omega) hpn
    obtain ⟨row', hrow', hfull'⟩ := ih (r0 + 1) nr (by omega) hnrfull'
    refine ⟨row', ?_, ?_⟩
    · rw [List.range'_succ]
      simp only [buildRows, hnr]
      exact hrow'
    · intro p hp hpn
      have := hfull' p (by omega) hpn
      rcases this with ⟨e, l, h1, h2, h3⟩
      refine ⟨e, l, h1, ?_, h3⟩
      rw [show r0 + (m + 1) = r0 + 1 + m by omega]
      exact h2

theorem finalScan_present (rowk : List Cell) :
    ∀ (is : List ℕ), (∀ i ∈ is, ∃ e l, rowk.getD i none = some (some e, some l)) →
      ∀ (e0 : ℚ) (s0 : Option (List ℕ)),
        ∃ out, finalScan rowk is (some e0, s0) = .ok out ∧ out.1.isSome := by
  intro is
  induction is with
  | nil =>
    intro _ e0 s0
    exact ⟨(some e0, s0), rfl, by simp⟩
  | cons i is ih =>
    intro hall e0 s0
    obtain ⟨e, l, hcell⟩ := hall i (by simp)
    have htail : ∀ j ∈ is, ∃ e' l', rowk.getD j none = some (some e', some l') :=
      fun j hj => hall j (by simp [hj])
    by_cases hlt : e < e0
    · obtain ⟨out, hout, hsome⟩ := ih htail e (some l)
      refine ⟨out, ?_, hsome⟩
      simp only [finalScan, hcell]
      rw [if_pos hlt]
      exact hout
    · obtain ⟨out, hout, hsome⟩ := ih htail e0 s0
      refine ⟨out, ?_, hsome⟩
      simp only [finalScan, hcell]
      rw [if_neg hlt]
      exact hout

/-- C9: under the stated preconditions (a strictly increasing 1-D point list
and 1 ≤ k ≤ n), both solvers return a present result: the DP solver returns
a float energy and a stored subset without raising (every cell it reads is
present and every gap it computes is positive), and the brute-force solver
returns a present minimum. -/
theorem sorted_input_returns_present (x : List ℚ) (k s : ℕ)
    (hsort : x.Pairwise (· < ·)) (hk : 1 ≤ k) (hkn : k ≤ x.length) :
    (∃ e sub, dp_subset x k s = .ok (some e, some sub)) ∧
    (∃ e b, brute_force_subset x k s = some (e, b)) := by
  constructor
  · rw [dp_subset, if_neg (by omega : k ≠ 0)]
    have hbase : ∀ p, 1 - 1 ≤ p → p < x.length →
        ∃ e l, ((List.range x.length).map fun i =>
          (some (some (0 : ℚ), some [i]) : Cell)).getD p none = some (some e, some l) ∧
            dpSubProps x 1 l ∧ l.getLast? = some p := by
      intro p _ hpn
      refine ⟨0, [p], ?_, ⟨List.pairwise_singleton _ _, rfl, by simpa using hpn,
        List.pairwise_singleton _ _⟩, rfl⟩
      rw [baseRow_getD, if_pos hpn]
    obtain ⟨rowk, hrows, hfullk⟩ :=
      fullRows_present x s hsort (k - 1) 1 _ le_rfl hbase
    have hrows2 : buildRows x s (List.range' 2 (k - 1))
        ((List.range x.length).map fun i => (some (some (0 : ℚ), some [i]) : Cell)) =
          .ok rowk := hrows
    rw [hrows2]
    have hfullk2 : ∀ p, k - 1 ≤ p → p < x.length →
        ∃ e l, rowk.getD p none = some (some e, some l) ∧
          dpSubProps x k l ∧ l.getLast? = some p := by
      intro p hp hpn
      have := hfullk p (by omega) hpn
      rwa [show 1 + (k - 1) = k by omega] at this
    have hsplitn : List.range' (k - 1) (x.length - (k - 1)) =
        (k - 1) :: List.range' k (x.length - k) := by
      have h2 : x.length - (k - 1) = (x.length - k) + 1 := by omega
      rw [h2, List.range'_succ]
      congr 1
      · congr 1
        omega
    rw [hsplitn]
    obtain ⟨e1, l1, hcellk, hprops1, -⟩ := hfullk2 (k - 1) le_rfl (by omega)
    simp only [finalScan, hcellk]
    obtain ⟨out, hout, hsome⟩ := finalScan_present rowk (List.range' k (x.length - k))
      (fun j hj => by
        have := List.mem_range'_1.mp hj
        obtain ⟨e', l', h1, -, -⟩ := hfullk2 j (by omega) (by omega)
        exact ⟨e', l', h1⟩) e1 (some l1)
    have hgk : GoodRow x k rowk := by
      have hg : GoodRow x (1 + (k - 1)) rowk :=
        buildRows_good x s (k - 1) 1 _ rowk le_rfl (goodRow_base x) hrows
      rwa [show 1 + (k - 1) = k by omega] at hg
    have hpair := finalScan_good x k rowk (fun i cnt hc => hgk i cnt hc)
      (List.range' k (x.length - k)) (some e1, some l1) out hout
      ⟨by simp, by rintro l hl; injection hl with hl; rw [← hl]; exact hprops1⟩
    obtain ⟨ee, hee⟩ := Option.isSome_iff_exists.mp hsome
    obtain ⟨ss, hss⟩ := Option.isSome_iff_exists.mp (hpair.1.mp hsome)
    refine ⟨ee, ss, ?_⟩
    rw [hout]
    rcases out with ⟨o1, o2⟩
    simp only at hee hss
    rw [hee, hss]
  · have hbounds : ∀ a ∈ List.range k, a < x.length :=
      fun a ha => lt_of_lt_of_le (List.mem_range.mp ha) hkn
    have hc0 : ValidSubset x k (List.range k) := by
      refine ⟨List.sorted_lt_range k, List.length_range k, hbounds, ?_⟩
      exact (List.sorted_lt_range k).imp_of_mem
        (fun {a b} ha hb hab => sorted_getD_lt x hsort a b hab (hbounds b hb))
    have hmem := valid_mem_combinations x k _ hc0
    have hsome := (subsetEnergy_isSome_iff x s _).mpr hc0.2.2.2
    rcases hres : brute_force_subset x k s with _ | ⟨e, b⟩
    · exfalso
      rw [brute_force_subset, bfGo_eq_none_iff] at hres
      rw [hres.2 _ hmem] at hsome
      cases hsome
    · exact ⟨e, b, rfl⟩

theorem sorted_input_returns_present_witness :
    ((∃ e sub, dp_subset [0, 1, 3, 6] 2 1 = .ok (some e, some sub)) ∧
     (∃ e b, brute_force_subset [0, 1, 3, 6] 2 1 = some (e, b))) :=
  sorted_input_returns_present [0, 1, 3, 6] 2 1 (by decide) (by decide) (by decide)

theorem k_eq_one_zero_energy_witness :
    ((∃ i, i < ([7] : List ℚ).length ∧ dp_subset [7] 1 5 = .ok (some 0, some [i])) ∧
     (∃ b, brute_force_subset [7] 1 5 = some (0, b))) :=
  k_eq_one_zero_energy [7] 5 (by decide)

/-- C7: the Oracle/Comparator reports a match exactly when the two returned
subsets are identical and the absolute difference of the two returned
energies is less than `1e-6` (both energies being finite floats), and it
reports no match otherwise; it is a pure function of the two returned
results and alters neither. -/
theorem oracle_match_iff (pts : List (ℝ × ℝ)) (k s : ℕ) :
    (run_example_match pts k s = .ok true ↔
      ∃ dpRes, dp_subset_selection pts k s = .ok dpRes ∧
        dpRes.2 = (brute_force_subset_selection pts k s).2 ∧
        pyAbsDiffLt dpRes.1 (brute_force_subset_selection pts k s).1 (1 / 1000000)) ∧
    (run_example_match pts k s = .ok false ↔
      ∃ dpRes, dp_subset_selection pts k s = .ok dpRes ∧
        ¬(dpRes.2 = (brute_force_subset_selection pts k s).2 ∧
          pyAbsDiffLt dpRes.1 (brute_force_subset_selection pts k s).1 (1 / 1000000))) := by
  rcases hdp : dp_subset_selection pts k s with e | dpRes
  · refine ⟨⟨fun h => ?_, fun h => ?_⟩, fun h => ?_, fun h => ?_⟩
    · simp only [run_example_match, hdp] at h
      exact Except.noConfusion h
    · rcases h with ⟨d, hd, -⟩
      exact Except.noConfusion hd
    · simp only [run_example_match, hdp] at h
      exact Except.noConfusion h
    · rcases h with ⟨d, hd, -⟩
      exact Except.noConfusion hd
  · by_cases hcond : dpRes.2 = (brute_force_subset_selection pts k s).2 ∧
        pyAbsDiffLt dpRes.1 (brute_force_subset_selection pts k s).1 (1 / 1000000)
    · refine ⟨⟨fun _ => ⟨dpRes, rfl, hcond⟩, fun _ => ?_⟩, fun h => ?_, fun h => ?_⟩
      · simp only [run_example_match, hdp]
        rw [if_pos hcond]
      · simp only [run_example_match, hdp] at h
        rw [if_pos hcond] at h
        cases h
      · exfalso
        rcases h with ⟨d, hd, hnc⟩
        injection hd with hd
        rw [← hd] at hnc
        exact hnc hcond
    · refine ⟨⟨fun h => ?_, fun h => ?_⟩, fun _ => ⟨dpRes, rfl, hcond⟩, fun _ => ?_⟩
      · simp only [run_example_match, hdp] at h
        rw [if_neg hcond] at h
        cases h
      · exfalso
        rcases h with ⟨d, hd, hc⟩
        injection hd with hd
        rw [← hd] at hc
        exact hcond hc
      · simp only [run_example_match, hdp]
        rw [if_neg hcond]

/-! ### Global optimality of the brute force, 2-D version -/

theorem bfGo2_min (pts : List (ℝ × ℝ)) (s : ℕ) :
    ∀ (cs : List (List ℕ)) (acc : WithTop ℝ × Option (List ℕ)),
      (bfGo2 pts s cs acc).1 ≤ acc.1 ∧
      ∀ c ∈ cs, ∀ ec : ℝ, subsetEnergy2 pts s c = some ec →
        (bfGo2 pts s cs acc).1 ≤ (ec : WithTop ℝ) := by
  intro cs
  induction cs with
  | nil =>
    intro acc
    exact ⟨le_refl _, by simp⟩
  | cons c cs ih =>
    intro acc
    rcases he : subsetEnergy2 pts s c with _ | ec0
    · simp only [bfGo2, he]
      rcases ih acc with ⟨h1, h2⟩
      refine ⟨h1, ?_⟩
      intro c' hc' ec hec
      rcases List.mem_cons.mp hc' with rfl | hc''
      · rw [he] at hec
        cases hec
      · exact h2 c' hc'' ec hec
    · simp only [bfGo2, he]
      by_cases hlt : (ec0 : WithTop ℝ) < acc.1
      · rw [if_pos hlt]
        rcases ih ((ec0 : WithTop ℝ), some c) with ⟨h1, h2⟩
        refine ⟨le_trans h1 (le_of_lt hlt), ?_⟩
        intro c' hc' ec hec
        rcases List.mem_cons.mp hc' with rfl | hc''
        · rw [he] at hec
          injection hec with hec
          rw [← hec]
          exact h1
        · exact h2 c' hc'' ec hec
      · rw [if_neg hlt]
        push_neg at hlt
        rcases ih acc with ⟨h1, h2⟩
        refine ⟨h1, ?_⟩
        intro c' hc' ec hec
        rcases List.mem_cons.mp hc' with rfl | hc''
        · rw [he] at hec
          injection hec with hec
          rw [← hec]
          exact le_trans h1 hlt
        · exact h2 c' hc'' ec hec

/-- C1: for every point sequence, every k with 1 ≤ k ≤ n, and every
exponent s, the energy returned by the brute-force solver (when a result is
present) is a lower bound on the Riesz s-energy of every valid size-k index
subset (a strictly increasing index list of length k all of whose pairwise
distances are strictly positive): the brute-force result is the global
optimum over all valid size-k subsets.  First part: the 1-D
`brute_force_subset`; second part: the 2-D `brute_force_subset_selection`,
whose returned energy (`inf` exactly when no result is present) is bounded
by the energy of every valid subset. -/
theorem brute_force_is_global_optimum :
    (∀ (x : List ℚ) (k s : ℕ) (e : ℚ) (b : List ℕ), 1 ≤ k → k ≤ x.length →
      brute_force_subset x k s = some (e, b) →
      ∀ c, ValidSubset x k c → ∀ ec, subsetEnergy x s c = some ec → e ≤ ec) ∧
    (∀ (pts : List (ℝ × ℝ)) (k s : ℕ), 1 ≤ k → k ≤ pts.length →
      ∀ c, ValidSubset2 pts k c → ∀ ec : ℝ, subsetEnergy2 pts s c = some ec →
        (brute_force_subset_selection pts k s).1 ≤ (ec : WithTop ℝ)) := by
  constructor
  · intro x k s e b _ _ hres c hc ec hec
    exact (bfGo_min x s _ none e b hres).2 c (valid_mem_combinations x k c hc) ec hec
  · intro pts k s _ _ c hc ec hec
    have hmem : c ∈ combinations k (List.range pts.length) :=
      (mem_combinations_range _ _ _).mpr ⟨hc.1, hc.2.1, hc.2.2.1⟩
    exact (bfGo2_min pts s _ (⊤, none)).2 c hmem ec hec

theorem brute_force_is_global_optimum_witness :
    ((1 : ℚ) / 6 ≤ 1) ∧
    ((brute_force_subset_selection [(0, 0), (1, 1)] 1 1).1 ≤ ((0 : ℝ) : WithTop ℝ)) :=
  ⟨brute_force_is_global_optimum.1 [0, 1, 3, 6] 2 1 (1 / 6) [0, 3] (by decide) (by decide)
    (by decide) [0, 1] (by decide) 1 (by decide),
   brute_force_is_global_optimum.2 [(0, 0), (1, 1)] 1 1 (by norm_num) (by norm_num)
    [0] ⟨List.pairwise_singleton _ _, rfl, by simp, List.pairwise_singleton _ _⟩
    0 (by simp [subsetEnergy2, tailCost2])⟩

/-! ### Structural invariants of the 2-D dp table -/

theorem dpSubProps2_append (pts : List (ℝ × ℝ)) (r p i : ℕ) (l : List ℕ)
    (hl : dpSubProps2 pts r l) (hlast : l.getLast? = some p) (hpi : p < i)
    (hin : i < pts.length) :
    dpSubProps2 pts (r + 1) (l ++ [i]) ∧ (l ++ [i]).getLast? = some i := by
  rcases hl with ⟨hpw, hlen, hbound⟩
  have hlt : ∀ a ∈ l, a < i :=
    fun a ha => lt_of_le_of_lt (pairwise_lt_le_last l p hpw hlast a ha) hpi
  refine ⟨⟨?_, by simp [hlen], ?_⟩, List.getLast?_concat l⟩
  · rw [List.pairwise_append]
    exact ⟨hpw, List.pairwise_singleton _ _, fun a ha b hb => by
      rw [List.mem_singleton.mp hb]; exact hlt a ha⟩
  · intro a ha
    rcases List.mem_append.mp ha with ha' | ha'
    · exact hbound a ha'
    · rw [List.mem_singleton.mp ha']
      exact hin

theorem cellGo2_acc_good (pts : List (ℝ × ℝ)) (s : ℕ) (prev : List Cell2) (i : ℕ)
    (Q : List ℕ → Prop) :
    ∀ (ps : List ℕ),
      (∀ p ∈ ps, ∀ pe l, prev.getD p none = some (pe, some l) → Q (l ++ [i])) →
      ∀ (best : WithTop ℝ) (bsub : Option (List ℕ)) (out : CellVal2),
        cellGo2 pts s prev i ps best bsub = .ok out →
        (∀ l', bsub = some l' → Q l') → ∀ l', out.2 = some l' → Q l' := by
  intro ps
  induction ps with
  | nil =>
    intro _ best bsub out h hacc
    simp only [cellGo2] at h
    cases h
    exact hacc
  | cons p ps ih =>
    intro HQ best bsub out h hacc
    have HQtail : ∀ p' ∈ ps, ∀ pe l, prev.getD p' none = some (pe, some l) → Q (l ++ [i]) :=
      fun p' hp' => HQ p' (List.mem_cons_of_mem _ hp')
    rcases hcell : prev.getD p none with _ | ⟨prevE, sub⟩
    · simp only [cellGo2, hcell] at h
      exact ih HQtail best bsub out h hacc
    · rcases sub with _ | l
      · simp only [cellGo2, hcell] at h
        cases h
      · have hq : Q (l ++ [i]) := HQ p (by simp) prevE l hcell
        simp only [cellGo2, hcell] at h
        by_cases hlt : prevE + extra_cost2 pts s i l < best
        · rw [if_pos hlt] at h
          refine ih HQtail _ _ out h ?_
          rintro l' ⟨⟩
          exact hq
        · rw [if_neg hlt] at h
          exact ih HQtail _ _ out h hacc

theorem cellCompute2_good (pts : List (ℝ × ℝ)) (s : ℕ) (prev : List Cell2) (r i : ℕ)
    (Q : List ℕ → Prop)
    (HQ : ∀ p ∈ List.range' (r - 2) (i - (r - 2)), ∀ pe l,
      prev.getD p none = some (pe, some l) → Q (l ++ [i]))
    (out : CellVal2) (h : cellCompute2 pts s prev r i = .ok out) :
    ∀ l', out.2 = some l' → Q l' :=
  cellGo2_acc_good pts s prev i Q _ HQ ⊤ none out h (by rintro l' ⟨⟩)

theorem buildRow2_ok (pts : List (ℝ × ℝ)) (s : ℕ) (prev : List Cell2) (r : ℕ) :
    ∀ (L : List ℕ) (row : List Cell2), buildRow2 pts s prev r L = .ok row →
      row.length = L.length ∧ ∀ j, j < L.length →
        ((L.getD j 0 < r - 1 ∧ row.getD j none = none) ∨
          (¬ L.getD j 0 < r - 1 ∧
            ∃ cc, cellCompute2 pts s prev r (L.getD j 0) = .ok cc ∧
              row.getD j none = some cc)) := by
  intro L
  induction L with
  | nil =>
    intro row h
    simp only [buildRow2] at h
    cases h
    simp
  | cons i L ih =>
    intro row h
    by_cases hcond : i < r - 1
    · rw [buildRow2, if_pos hcond] at h
      rcases hbr : buildRow2 pts s prev r L with e | rest
      · rw [hbr] at h
        cases h
      · rw [hbr] at h
        cases h
        rcases ih rest hbr with ⟨hlen, hpt⟩
        refine ⟨by simp [hlen], ?_⟩
        intro j hj
        cases j with
        | zero => exact Or.inl ⟨hcond, rfl⟩
        | succ j =>
          simp only [List.getD_cons_succ]
          exact hpt j (by simpa using hj)
    · rw [buildRow2, if_neg hcond] at h
      rcases hcc : cellCompute2 pts s prev r i with e | cc
      · rw [hcc] at h
        cases h
      · rw [hcc] at h
        rcases hbr : buildRow2 pts s prev r L with e | rest
        · rw [hbr] at h
          cases h
        · rw [hbr] at h
          cases h
          rcases ih rest hbr with ⟨hlen, hpt⟩
          refine ⟨by simp [hlen], ?_⟩
          intro j hj
          cases j with
          | zero => exact Or.inr ⟨hcond, cc, hcc, rfl⟩
          | succ j =>
            simp only [List.getD_cons_succ]
            exact hpt j (by simpa using hj)

theorem baseRow2_getD (pts : List (ℝ × ℝ)) (p : ℕ) :
    ((List.range pts.length).map fun i =>
        (some ((0 : WithTop ℝ), some [i]) : Cell2)).getD p none =
      if p < pts.length then some ((0 : WithTop ℝ), some [p]) else none := by
  by_cases hp : p < pts.length
  · rw [if_pos hp]
    rw [List.getD_eq_getElem?_getD, List.getElem?_map, List.getElem?_range hp]
    rfl
  · rw [if_neg hp]
    rw [List.getD_eq_getElem?_getD, List.getElem?_eq_none (by simpa using hp)]
    rfl

theorem goodRow2_base (pts : List (ℝ × ℝ)) :
    GoodRow2 pts 1 ((List.range pts.length).map fun i =>
      (some ((0 : WithTop ℝ), some [i]) : Cell2)) := by
  intro p cnt hcnt
  rw [baseRow2_getD] at hcnt
  by_cases hp : p < pts.length
  · rw [if_pos hp] at hcnt
    cases hcnt
    rintro l ⟨⟩
    exact ⟨⟨List.pairwise_singleton _ _, rfl, by simpa using hp⟩, rfl⟩
  · rw [if_neg hp] at hcnt
    cases hcnt

theorem goodRow2_step (pts : List (ℝ × ℝ)) (s : ℕ) (r : ℕ) (hr : 1 ≤ r)
    (prev row : List Cell2) (hprev : GoodRow2 pts r prev)
    (hrow : buildRow2 pts s prev (r + 1) (List.range pts.length) = .ok row) :
    GoodRow2 pts (r + 1) row := by
  intro p cnt hcnt
  rcases buildRow2_ok pts s prev (r + 1) (List.range pts.length) row hrow with ⟨hlen, hpt⟩
  by_cases hp : p < pts.length
  · have hLp : (List.range pts.length).getD p 0 = p := by
      rw [List.getD_eq_getElem?_getD, List.getElem?_range hp]
      rfl
    have hj := hpt p (by simpa using hp)
    rw [hLp] at hj
    rcases hj with ⟨_, hnone⟩ | ⟨_, cc, hcc, hgetD⟩
    · rw [hnone] at hcnt
      cases hcnt
    · rw [hgetD] at hcnt
      injection hcnt with hcnt2
      subst hcnt2
      refine cellCompute2_good pts s prev (r + 1) p
        (fun l' => dpSubProps2 pts (r + 1) l' ∧ l'.getLast? = some p) ?_ cc hcc
      intro q hq pe l hqcell
      have hqmem := List.mem_range'_1.mp hq
      have hqp : q < p := by omega
      rcases hprev q _ hqcell l rfl with ⟨hprops, hlast⟩
      exact dpSubProps2_append pts r q p l hprops hlast hqp hp
  · rw [List.getD_eq_getElem?_getD,
      List.getElem?_eq_none (by simp only [hlen, List.length_range]; omega)] at hcnt
    cases hcnt

theorem buildRows2_good (pts : List (ℝ × ℝ)) (s : ℕ) :
    ∀ (m r0 : ℕ) (row row' : List Cell2), 1 ≤ r0 → GoodRow2 pts r0 row →
      buildRows2 pts s (List.range' (r0 + 1) m) row = .ok row' →
      GoodRow2 pts (r0 + m) row' := by
  intro m
  induction m with
  | zero =>
    intro r0 row row' _ hg h
    simp only [List.range'_zero, buildRows2] at h
    cases h
    exact hg
  | succ m ih =>
    intro r0 row row' hr hg h
    rw [List.range'_succ] at h
    simp only [buildRows2] at h
    rcases hbr : buildRow2 pts s row (r0 + 1) (List.range pts.length) with e | nr
    · rw [hbr] at h
      cases h
    · rw [hbr] at h
      have hg' : GoodRow2 pts (r0 + 1) nr := goodRow2_step pts s r0 hr row nr hg hbr
      have hres := ih (r0 + 1) nr row' (by omega) hg' h
      rw [show r0 + (m + 1) = r0 + 1 + m by omega]
      exact hres

theorem finalScan2_good (pts : List (ℝ × ℝ)) (k : ℕ) (rowk : List Cell2)
    (hrow : ∀ i cnt, rowk.getD i none = some cnt → GoodCell2 pts k i cnt) :
    ∀ (is : List ℕ) (acc : CellVal2),
      (∀ l, acc.2 = some l → dpSubProps2 pts k l) →
      ∀ l, (finalScan2 rowk is acc).2 = some l → dpSubProps2 pts k l := by
  intro is
  induction is with
  | nil =>
    intro acc hacc
    simpa [finalScan2] using hacc
  | cons i is ih =>
    intro acc hacc
    rcases hcell : rowk.getD i none with _ | ⟨energy, subset⟩
    · simp only [finalScan2, hcell]
      exact ih acc hacc
    · have hgc := hrow i _ hcell
      simp only [finalScan2, hcell]
      by_cases hlt : energy < acc.1
      · rw [if_pos hlt]
        exact ih _ (fun l hl => (hgc l hl).1)
      · rw [if_neg hlt]
        exact ih _ hacc

theorem dp2_ok_props (pts : List (ℝ × ℝ)) (k s : ℕ) (out : CellVal2) (hk : k ≠ 0)
    (h : dp_subset_selection pts k s = .ok out) :
    ∀ l, out.2 = some l → dpSubProps2 pts k l := by
  rw [dp_subset_selection, if_neg hk] at h
  rcases hbr : buildRows2 pts s (List.range' 2 (k - 1))
      ((List.range pts.length).map fun i =>
        (some ((0 : WithTop ℝ), some [i]) : Cell2)) with e | rowk
  · rw [hbr] at h
    cases h
  · rw [hbr] at h
    injection h with h
    have hg : GoodRow2 pts (1 + (k - 1)) rowk :=
      buildRows2_good pts s (k - 1) 1 _ rowk (le_refl 1) (goodRow2_base pts) hbr
    have hgk : GoodRow2 pts k rowk := by
      rwa [show 1 + (k - 1) = k by omega] at hg
    rw [← h]
    exact finalScan2_good pts k rowk (fun i cnt hc => hgk i cnt hc) _ (⊤, none)
      (by rintro l ⟨⟩)

theorem bfGo2_mem (pts : List (ℝ × ℝ)) (s : ℕ) :
    ∀ (cs : List (List ℕ)) (acc : WithTop ℝ × Option (List ℕ)) (b : List ℕ),
      (bfGo2 pts s cs acc).2 = some b → acc.2 = some b ∨ b ∈ cs := by
  intro cs
  induction cs with
  | nil =>
    intro acc b h
    exact Or.inl h
  | cons c cs ih =>
    intro acc b h
    rcases he : subsetEnergy2 pts s c with _ | ec
    · simp only [bfGo2, he] at h
      rcases ih acc b h with h' | h'
      · exact Or.inl h'
      · exact Or.inr (by simp [h'])
    · simp only [bfGo2, he] at h
      by_cases hlt : (ec : WithTop ℝ) < acc.1
      · rw [if_pos hlt] at h
        rcases ih _ b h with h' | h'
        · injection h' with h'
          exact Or.inr (by simp [← h'])
        · exact Or.inr (by simp [h'])
      · rw [if_neg hlt] at h
        rcases ih acc b h with h' | h'
        · exact Or.inl h'
        · exact Or.inr (by simp [h'])

/-- C5: with 1 ≤ k ≤ n, whenever either solver (in either dimensionality)
returns a present subset, that subset is a strictly increasing list of
exactly k indices into the point sequence, each index unique and in range.
The four parts cover the 1-D dp, the 1-D brute force, the 2-D dp and the
2-D brute force. -/
theorem returned_subsets_well_formed :
    (∀ (x : List ℚ) (k s : ℕ), 1 ≤ k → k ≤ x.length →
      ∀ e sub, dp_subset x k s = .ok (e, some sub) →
        sub.Pairwise (· < ·) ∧ sub.length = k ∧ ∀ a ∈ sub, a < x.length) ∧
    (∀ (x : List ℚ) (k s : ℕ), 1 ≤ k → k ≤ x.length →
      ∀ e sub, brute_force_subset x k s = some (e, sub) →
        sub.Pairwise (· < ·) ∧ sub.length = k ∧ ∀ a ∈ sub, a < x.length) ∧
    (∀ (pts : List (ℝ × ℝ)) (k s : ℕ), 1 ≤ k → k ≤ pts.length →
      ∀ e sub, dp_subset_selection pts k s = .ok (e, some sub) →
        sub.Pairwise (· < ·) ∧ sub.length = k ∧ ∀ a ∈ sub, a < pts.length) ∧
    (∀ (pts : List (ℝ × ℝ)) (k s : ℕ), 1 ≤ k → k ≤ pts.length →
      ∀ e sub, brute_force_subset_selection pts k s = (e, some sub) →
        sub.Pairwise (· < ·) ∧ sub.length = k ∧ ∀ a ∈ sub, a < pts.length) := by
  refine ⟨?_, ?_, ?_, ?_⟩
  · intro x k s hk _ e sub hres
    have h := dp_subset_ok_props x k s (e, some sub) (by omega) hres
    rcases h.2 sub rfl with ⟨h1, h2, h3, -⟩
    exact ⟨h1, h2, h3⟩
  · intro x k s _ _ e sub hres
    rcases bfGo_mem x s _ none e sub hres with h | ⟨hmem, -⟩
    · cases h
    · rcases (mem_combinations_range _ _ _).mp hmem with ⟨h1, h2, h3⟩
      exact ⟨h1, h2, h3⟩
  · intro pts k s hk _ e sub hres
    exact dp2_ok_props pts k s (e, some sub) (by omega) hres sub rfl
  · intro pts k s _ _ e sub hres
    have hmem : sub ∈ combinations k (List.range pts.length) := by
      have h2 : (brute_force_subset_selection pts k s).2 = some sub := by rw [hres]
      rcases bfGo2_mem pts s (combinations k (List.range pts.length)) (⊤, none) sub h2 with
        h | h
      · cases h
      · exact h
    rcases (mem_combinations_range _ _ _).mp hmem with ⟨h1, h2, h3⟩
    exact ⟨h1, h2, h3⟩

theorem returned_subsets_well_formed_witness :
    (([0, 3] : List ℕ).Pairwise (· < ·) ∧ ([0, 3] : List ℕ).length = 2 ∧
      ∀ a ∈ ([0, 3] : List ℕ), a < ([0, 1, 3, 6] : List ℚ).length) ∧
    (([0] : List ℕ).Pairwise (· < ·) ∧ ([0] : List ℕ).length = 1 ∧
      ∀ a ∈ ([0] : List ℕ), a < ([(0, 0), (1, 1)] : List (ℝ × ℝ)).length) := by
  have hdp2 : dp_subset_selection [(0, 0), (1, 1)] 1 1 = .ok ((0 : WithTop ℝ), some [0]) := by
    rw [dp_subset_selection, if_neg one_ne_zero]
    have hrows : buildRows2 [(0, 0), (1, 1)] 1
        (List.range' 2 (1 - 1))
        ((List.range ([(0, 0), (1, 1)] : List (ℝ × ℝ)).length).map fun i =>
          (some ((0 : WithTop ℝ), some [i]) : Cell2)) =
        .ok ((List.range ([(0, 0), (1, 1)] : List (ℝ × ℝ)).length).map fun i =>
          (some ((0 : WithTop ℝ), some [i]) : Cell2)) := by
      simp [buildRows2]
    rw [hrows]
    have hR1 : ((List.range ([(0, 0), (1, 1)] : List (ℝ × ℝ)).length).map fun i =>
        (some ((0 : WithTop ℝ), some [i]) : Cell2)) =
          [some ((0 : WithTop ℝ), some [0]), some ((0 : WithTop ℝ), some [1])] := rfl
    rw [hR1]
    rw [show List.range' (1 - 1) (([(0, 0), (1, 1)] : List (ℝ × ℝ)).length - (1 - 1)) =
      [0, 1] from rfl]
    simp only [finalScan2, List.getD_cons_zero, List.getD_cons_succ]
    rw [if_pos (lt_top_iff_ne_top.mpr WithTop.zero_ne_top), if_neg (lt_irrefl _)]
  exact ⟨(returned_subsets_well_formed.1 [0, 1, 3, 6] 2 1 (by decide) (by decide)
      (some (1 / 6)) [0, 3] (by decide)),
    (returned_subsets_well_formed.2.2.1 [(0, 0), (1, 1)] 1 1 (by norm_num) (by norm_num)
      (0 : WithTop ℝ) [0] hdp2)⟩
